import Mathlib

/-!
Verification of the media lifecycle subsystem of the nextcloud-media-bridge
repository: the media reference codec (`EncodeMediaID` / `DecodeMediaID`),
the signed media-state records used to authorize redaction-driven deletion,
the path-template renderer and path-segment sanitizer, and the
placement/dedup/collision algorithm of the media lifecycle orchestrator.

Go strings are modelled as `String` / `List Char` (sequences of Unicode
scalar values); byte slices as `List Nat` with entries `< 256`.
HMAC-SHA256 (from Go's crypto/hmac and crypto/sha256) is implemented
concretely below so that every definition is executable.
-/

deriving instance DecidableEq for Except

/-! ## Byte-level primitives: SHA-256 and HMAC-SHA256 -/

/-- Truncate to a 32-bit word. -/
def w32 (n : Nat) : Nat := n % 4294967296

/-- 32-bit addition. -/
def add32 (a b : Nat) : Nat := (a + b) % 4294967296

/-- Rotate a 32-bit word right by `n`. -/
def rotr (n x : Nat) : Nat := w32 (x / 2 ^ n + x % 2 ^ n * 2 ^ (32 - n))

/-- Logical shift right. -/
def shr (n x : Nat) : Nat := x / 2 ^ n

/-- 32-bit complement. -/
def not32 (x : Nat) : Nat := 4294967295 - w32 x

def shaCh (x y z : Nat) : Nat := Nat.xor (Nat.land x y) (Nat.land (not32 x) z)

def shaMaj (x y z : Nat) : Nat :=
  Nat.xor (Nat.xor (Nat.land x y) (Nat.land x z)) (Nat.land y z)

def bsig0 (x : Nat) : Nat := Nat.xor (Nat.xor (rotr 2 x) (rotr 13 x)) (rotr 22 x)
def bsig1 (x : Nat) : Nat := Nat.xor (Nat.xor (rotr 6 x) (rotr 11 x)) (rotr 25 x)
def ssig0 (x : Nat) : Nat := Nat.xor (Nat.xor (rotr 7 x) (rotr 18 x)) (shr 3 x)
def ssig1 (x : Nat) : Nat := Nat.xor (Nat.xor (rotr 17 x) (rotr 19 x)) (shr 10 x)

/-- The SHA-256 round constants. -/
def shaK : List Nat :=
  [1116352408, 1899447441, 3049323471, 3921009573, 961987163, 1508970993, 2453635748, 2870763221,
   3624381080, 310598401, 607225278, 1426881987, 1925078388, 2162078206, 2614888103, 3248222580,
   3835390401, 4022224774, 264347078, 604807628, 770255983, 1249150122, 1555081692, 1996064986,
   2554220882, 2821834349, 2952996808, 3210313671, 3336571891, 3584528711, 113926993, 338241895,
   666307205, 773529912, 1294757372, 1396182291, 1695183700, 1986661051, 2177026350, 2456956037,
   2730485921, 2820302411, 3259730800, 3345764771, 3516065817, 3600352804, 4094571909, 275423344,
   430227734, 506948616, 659060556, 883997877, 958139571, 1322822218, 1537002063, 1747873779,
   1955562222, 2024104815, 2227730452, 2361852424, 2428436474, 2756734187, 3204031479, 3329325298]

/-- The eight 32-bit words of SHA-256 working state. -/
structure Sha8 where
  a : Nat
  b : Nat
  c : Nat
  d : Nat
  e : Nat
  f : Nat
  g : Nat
  h : Nat

/-- Extend the 16 message-schedule words by `n` more words. -/
def extendW (ws : List Nat) : Nat → List Nat
  | 0 => ws
  | n + 1 =>
    let t := add32 (add32 (ssig1 (ws.getD (ws.length - 2) 0)) (ws.getD (ws.length - 7) 0))
                   (add32 (ssig0 (ws.getD (ws.length - 15) 0)) (ws.getD (ws.length - 16) 0))
    extendW (ws ++ [t]) n

/-- One SHA-256 round. -/
def shaRound (st : Sha8) (k w : Nat) : Sha8 :=
  let t1 := add32 st.h (add32 (bsig1 st.e) (add32 (shaCh st.e st.f st.g) (add32 k w)))
  let t2 := add32 (bsig0 st.a) (shaMaj st.a st.b st.c)
  ⟨add32 t1 t2, st.a, st.b, st.c, add32 st.d t1, st.e, st.f, st.g⟩

/-- Run the 64 rounds over paired constants and schedule words. -/
def shaRounds : Sha8 → List Nat → List Nat → Sha8
  | st, k :: ks, w :: ws => shaRounds (shaRound st k w) ks ws
  | st, _, _ => st

/-- Compress one 16-word block into the state. -/
def shaCompress (st : Sha8) (block : List Nat) : Sha8 :=
  let ws := extendW block 48
  let r := shaRounds st shaK ws
  ⟨add32 st.a r.a, add32 st.b r.b, add32 st.c r.c, add32 st.d r.d,
   add32 st.e r.e, add32 st.f r.f, add32 st.g r.g, add32 st.h r.h⟩

/-- Big-endian bytes → 32-bit words. -/
def toWordsBE : List Nat → List Nat
  | b0 :: b1 :: b2 :: b3 :: rest =>
    (b0 * 16777216 + b1 * 65536 + b2 * 256 + b3) :: toWordsBE rest
  | _ => []

/-- Split into 64-byte chunks (fuelled so that the kernel can evaluate it;
the fuel is the list length, which always suffices). -/
def chunks64F : Nat → List Nat → List (List Nat)
  | 0, _ => []
  | _, [] => []
  | fuel + 1, b :: rest => ((b :: rest).take 64) :: chunks64F fuel ((b :: rest).drop 64)

def chunks64 (l : List Nat) : List (List Nat) := chunks64F l.length l

/-- 64-bit big-endian encoding. -/
def be64 (n : Nat) : List Nat :=
  [n / 72057594037927936 % 256, n / 281474976710656 % 256, n / 1099511627776 % 256,
   n / 4294967296 % 256, n / 16777216 % 256, n / 65536 % 256, n / 256 % 256, n % 256]

/-- 32-bit big-endian encoding. -/
def be32 (w : Nat) : List Nat := [w / 16777216 % 256, w / 65536 % 256, w / 256 % 256, w % 256]

/-- SHA-256 message padding: append `0x80`, zeros to 56 mod 64, then the bit length. -/
def shaPad (msg : List Nat) : List Nat :=
  let len := msg.length
  let zeros := (119 - len % 64) % 64
  msg ++ 0x80 :: List.replicate zeros 0 ++ be64 (len * 8)

/-- SHA-256 of a byte sequence. -/
def sha256 (msg : List Nat) : List Nat :=
  let init : Sha8 := ⟨1779033703, 3144134277, 1013904242, 2773480762,
                      1359893119, 2600822924, 528734635, 1541459225⟩
  let fin := (chunks64 (shaPad msg)).foldl (fun st b => shaCompress st (toWordsBE b)) init
  be32 fin.a ++ be32 fin.b ++ be32 fin.c ++ be32 fin.d ++
  be32 fin.e ++ be32 fin.f ++ be32 fin.g ++ be32 fin.h

/-- HMAC-SHA256 (block size 64) as in Go's crypto/hmac. -/
def hmacSha256 (key msg : List Nat) : List Nat :=
  let k0 := if 64 < key.length then sha256 key else key
  let kp := k0 ++ List.replicate (64 - k0.length) 0
  sha256 (kp.map (Nat.xor 0x5c) ++ sha256 (kp.map (Nat.xor 0x36) ++ msg))

theorem sha256_length (msg : List Nat) : (sha256 msg).length = 32 := by
  simp [sha256, be32]

theorem hmacSha256_length (key msg : List Nat) : (hmacSha256 key msg).length = 32 := by
  simp [hmacSha256, sha256_length]

theorem be32_lt_256 : ∀ b ∈ be32 w, b < 256 := by
  intro b hb
  simp [be32] at hb
  rcases hb with h | h | h | h <;> (subst h; exact Nat.mod_lt _ (by omega))

theorem sha256_lt_256 : ∀ b ∈ sha256 msg, b < 256 := by
  intro b hb
  simp only [sha256, List.mem_append] at hb
  rcases hb with ((((((h | h) | h) | h) | h) | h) | h) | h <;> exact be32_lt_256 _ h

theorem hmacSha256_lt_256 : ∀ b ∈ hmacSha256 key msg, b < 256 := by
  intro b hb
  exact sha256_lt_256 b hb

/-! ## base64url (Go's base64.RawURLEncoding: URL-safe alphabet, no padding) -/

/-- The URL-safe base64 alphabet. -/
def b64Char (n : Nat) : Char :=
  if n < 26 then Char.ofNat (65 + n)
  else if n < 52 then Char.ofNat (97 + (n - 26))
  else if n < 62 then Char.ofNat (48 + (n - 52))
  else if n = 62 then '-'
  else '_'

/-- Inverse of the URL-safe alphabet. -/
def b64Val (c : Char) : Option Nat :=
  let v := c.toNat
  if 65 ≤ v ∧ v ≤ 90 then some (v - 65)
  else if 97 ≤ v ∧ v ≤ 122 then some (v - 97 + 26)
  else if 48 ≤ v ∧ v ≤ 57 then some (v - 48 + 52)
  else if v = 45 then some 62
  else if v = 95 then some 63
  else none

/-- base64url encoding without padding (RawURLEncoding.EncodeToString). -/
def b64encode : List Nat → List Char
  | [] => []
  | [b] => [b64Char (b / 4), b64Char (b % 4 * 16)]
  | [b, c] => [b64Char (b / 4), b64Char (b % 4 * 16 + c / 16), b64Char (c % 16 * 4)]
  | b :: c :: d :: rest =>
    b64Char (b / 4) :: b64Char (b % 4 * 16 + c / 16) ::
    b64Char (c % 16 * 4 + d / 64) :: b64Char (d % 64) :: b64encode rest

/-- base64url decoding without padding (RawURLEncoding.DecodeString); fails on an
invalid alphabet character or a length ≡ 1 (mod 4). -/
def b64decode : List Char → Option (List Nat)
  | [] => some []
  | [_] => none
  | [a, b] =>
    match b64Val a, b64Val b with
    | some va, some vb => some [va * 4 + vb / 16]
    | _, _ => none
  | [a, b, c] =>
    match b64Val a, b64Val b, b64Val c with
    | some va, some vb, some vc => some [va * 4 + vb / 16, vb % 16 * 16 + vc / 4]
    | _, _, _ => none
  | a :: b :: c :: d :: rest =>
    match b64Val a, b64Val b, b64Val c, b64Val d, b64decode rest with
    | some va, some vb, some vc, some vd, some r =>
      some ((va * 4 + vb / 16) :: (vb % 16 * 16 + vc / 4) :: (vc % 4 * 64 + vd) :: r)
    | _, _, _, _, _ => none

theorem b64Val_b64Char : ∀ n, n < 64 → b64Val (b64Char n) = some n := by decide

theorem b64_roundtrip : ∀ (l : List Nat), (∀ b ∈ l, b < 256) → b64decode (b64encode l) = some l
  | [], _ => rfl
  | [b], h => by
    have hb : b < 256 := h b (by simp)
    simp only [b64encode, b64decode]
    rw [b64Val_b64Char _ (by omega), b64Val_b64Char _ (by omega)]
    simp
    all_goals omega
  | [b, c], h => by
    have hb : b < 256 := h b (by simp)
    have hc : c < 256 := h c (by simp)
    simp only [b64encode, b64decode]
    rw [b64Val_b64Char _ (by omega), b64Val_b64Char _ (by omega), b64Val_b64Char _ (by omega)]
    simp
    all_goals omega
  | [b, c, d], h => by
    have hb : b < 256 := h b (by simp)
    have hc : c < 256 := h c (by simp)
    have hd : d < 256 := h d (by simp)
    simp only [b64encode, b64decode]
    rw [b64Val_b64Char _ (by omega), b64Val_b64Char _ (by omega), b64Val_b64Char _ (by omega),
        b64Val_b64Char _ (by omega)]
    simp
    all_goals omega
  | b :: c :: d :: e :: rest, h => by
    have hb : b < 256 := h b (by simp)
    have hc : c < 256 := h c (by simp)
    have hd : d < 256 := h d (by simp)
    have ih := b64_roundtrip (e :: rest) (fun x hx => h x (by simp at hx ⊢; tauto))
    simp only [b64encode, b64decode]
    rw [b64Val_b64Char _ (by omega), b64Val_b64Char _ (by omega), b64Val_b64Char _ (by omega),
        b64Val_b64Char _ (by omega), ih]
    simp
    all_goals omega

/-! ## UTF-8 (Go strings are UTF-8 byte sequences; chars are Unicode scalar values) -/

/-- UTF-8 encoding of a single Unicode scalar value. -/
def utf8EncChar (c : Char) : List Nat :=
  let v := c.toNat
  if v < 128 then [v]
  else if v < 2048 then [192 + v / 64, 128 + v % 64]
  else if v < 65536 then [224 + v / 4096, 128 + v / 64 % 64, 128 + v % 64]
  else [240 + v / 262144, 128 + v / 4096 % 64, 128 + v / 64 % 64, 128 + v % 64]

/-- UTF-8 encoding of a character sequence. -/
def utf8Encode (s : List Char) : List Nat := (s.map utf8EncChar).flatten

/-- Whether a byte is a UTF-8 continuation byte. -/
def isCont (b : Nat) : Bool := 128 ≤ b ∧ b < 192

/-- Decode a single UTF-8 encoded scalar value from the front of a byte sequence
(strict: rejects overlong forms, surrogates, out-of-range). -/
def utf8DecChar : List Nat → Option (Char × List Nat)
  | [] => none
  | b :: rest =>
    if b < 128 then some (Char.ofNat b, rest)
    else if b < 194 then none
    else if b < 224 then
      match rest with
      | b1 :: r2 =>
        if isCont b1 then some (Char.ofNat ((b - 192) * 64 + (b1 - 128)), r2) else none
      | [] => none
    else if b < 240 then
      match rest with
      | b1 :: b2 :: r2 =>
        if isCont b1 ∧ isCont b2 then
          let v := (b - 224) * 4096 + (b1 - 128) * 64 + (b2 - 128)
          if 2048 ≤ v ∧ ¬(55296 ≤ v ∧ v < 57344) then some (Char.ofNat v, r2) else none
        else none
      | _ => none
    else if b < 245 then
      match rest with
      | b1 :: b2 :: b3 :: r2 =>
        if isCont b1 ∧ isCont b2 ∧ isCont b3 then
          let v := (b - 240) * 262144 + (b1 - 128) * 4096 + (b2 - 128) * 64 + (b3 - 128)
          if 65536 ≤ v ∧ v < 1114112 then some (Char.ofNat v, r2) else none
        else none
      | _ => none
    else none

theorem utf8DecChar_length :
    ∀ (l : List Nat) (c : Char) (rest : List Nat),
      utf8DecChar l = some (c, rest) → rest.length < l.length := by
  intro l c rest h
  match l with
  | [] => exact Option.noConfusion h
  | [b] =>
    simp only [utf8DecChar] at h
    split_ifs at h <;>
      first
        | exact Option.noConfusion h
        | (simp only [Option.some.injEq, Prod.mk.injEq] at h
           obtain ⟨-, hr⟩ := h
           subst hr
           simp only [List.length_cons, List.length_nil]
           omega)
  | [b, b1] =>
    simp only [utf8DecChar] at h
    split_ifs at h <;>
      first
        | exact Option.noConfusion h
        | (simp only [Option.some.injEq, Prod.mk.injEq] at h
           obtain ⟨-, hr⟩ := h
           subst hr
           simp only [List.length_cons, List.length_nil]
           omega)
  | [b, b1, b2] =>
    simp only [utf8DecChar] at h
    split_ifs at h <;>
      first
        | exact Option.noConfusion h
        | (simp only [Option.some.injEq, Prod.mk.injEq] at h
           obtain ⟨-, hr⟩ := h
           subst hr
           simp only [List.length_cons, List.length_nil]
           omega)
  | b :: b1 :: b2 :: b3 :: tl =>
    simp only [utf8DecChar] at h
    split_ifs at h <;>
      first
        | exact Option.noConfusion h
        | (simp only [Option.some.injEq, Prod.mk.injEq] at h
           obtain ⟨-, hr⟩ := h
           subst hr
           simp only [List.length_cons, List.length_nil]
           omega)

/-- Strict UTF-8 decoding of a whole byte sequence (fuelled; the fuel is the
byte count, which always suffices since each scalar consumes at least one
byte). -/
def utf8DecodeF : Nat → List Nat → Option (List Char)
  | 0, l => if l.isEmpty then some [] else none
  | fuel + 1, l =>
    match utf8DecChar l with
    | some (c, rest) => (utf8DecodeF fuel rest).map (fun r => c :: r)
    | none => if l.isEmpty then some [] else none

def utf8Decode (l : List Nat) : Option (List Char) := utf8DecodeF l.length l

theorem utf8DecodeF_fuel :
    ∀ (f1 : Nat) (l : List Nat) (f2 : Nat), l.length ≤ f1 → l.length ≤ f2 →
      utf8DecodeF f1 l = utf8DecodeF f2 l := by
  intro f1
  induction f1 with
  | zero =>
    intro l f2 h1 h2
    have hl : l = [] := by
      cases l with
      | nil => rfl
      | cons b tl => simp at h1
    subst hl
    cases f2 with
    | zero => rfl
    | succ f2s => simp [utf8DecodeF, utf8DecChar]
  | succ f1s ih =>
    intro l f2 h1 h2
    cases l with
    | nil =>
      cases f2 with
      | zero => simp [utf8DecodeF, utf8DecChar]
      | succ f2s => simp [utf8DecodeF, utf8DecChar]
    | cons b tl =>
      cases f2 with
      | zero => simp at h2
      | succ f2s =>
        simp only [utf8DecodeF]
        cases hd : utf8DecChar (b :: tl) with
        | none => rfl
        | some p =>
          obtain ⟨c, rest⟩ := p
          have hlt := utf8DecChar_length _ _ _ hd
          simp only [List.length_cons] at hlt h1 h2
          simp [ih rest f2s (by omega) (by omega)]

theorem char_toNat_valid (c : Char) : c.toNat < 55296 ∨ (57344 ≤ c.toNat ∧ c.toNat < 1114112) := by
  have h := c.valid
  rcases h with h | h
  · left
    exact h
  · right
    exact ⟨h.1, h.2⟩

theorem utf8EncChar_lt_256 : ∀ b ∈ utf8EncChar c, b < 256 := by
  intro b hb
  have hv := char_toNat_valid c
  simp only [utf8EncChar] at hb
  split at hb
  · simp at hb; omega
  · split at hb
    · simp at hb; omega
    · split at hb
      · simp at hb; omega
      · simp at hb; omega

theorem utf8Encode_lt_256 : ∀ b ∈ utf8Encode s, b < 256 := by
  intro b hb
  simp only [utf8Encode, List.mem_flatten, List.mem_map] at hb
  obtain ⟨l, ⟨c, _, rfl⟩, hbl⟩ := hb
  exact utf8EncChar_lt_256 b hbl


theorem utf8Decode_nil : utf8Decode [] = some [] := rfl

theorem utf8Decode_cons_of_decChar (l rest : List Nat) (c : Char)
    (h : utf8DecChar l = some (c, rest)) :
    utf8Decode l = (utf8Decode rest).map (fun r => c :: r) := by
  obtain ⟨b, tl, rfl⟩ : ∃ b tl, l = b :: tl := by
    cases l with
    | nil => exact Option.noConfusion h
    | cons b tl => exact ⟨b, tl, rfl⟩
  have hlt := utf8DecChar_length _ _ _ h
  rw [utf8Decode]
  simp only [List.length_cons, utf8DecodeF, h]
  simp only [List.length_cons] at hlt
  rw [utf8DecodeF_fuel tl.length rest rest.length (by omega) (le_refl _)]
  rfl

theorem utf8DecChar_encChar (c : Char) (rest : List Nat) :
    utf8DecChar (utf8EncChar c ++ rest) = some (c, rest) := by
  have hv := char_toNat_valid c
  have hofnat : Char.ofNat c.toNat = c := Char.ofNat_toNat c
  by_cases h1 : c.toNat < 128
  · have he : utf8EncChar c = [c.toNat] := by simp [utf8EncChar, h1]
    rw [he, List.cons_append, List.nil_append]
    simp only [utf8DecChar, if_pos h1, hofnat]
  · by_cases h2 : c.toNat < 2048
    · have he : utf8EncChar c = [192 + c.toNat / 64, 128 + c.toNat % 64] := by
        simp [utf8EncChar, h1, h2]
      rw [he, List.cons_append, List.cons_append, List.nil_append]
      simp only [utf8DecChar]
      rw [if_neg (by omega), if_neg (by omega), if_pos (by omega),
          if_pos (by simp [isCont]; omega)]
      have hval : (192 + c.toNat / 64 - 192) * 64 + (128 + c.toNat % 64 - 128) = c.toNat := by
        omega
      rw [hval, hofnat]
    · by_cases h3 : c.toNat < 65536
      · have he : utf8EncChar c =
            [224 + c.toNat / 4096, 128 + c.toNat / 64 % 64, 128 + c.toNat % 64] := by
          simp [utf8EncChar, h1, h2, h3]
        rw [he, List.cons_append, List.cons_append, List.cons_append, List.nil_append]
        simp only [utf8DecChar]
        rw [if_neg (by omega), if_neg (by omega), if_neg (by omega), if_pos (by omega)]
        rw [if_pos (by constructor <;> (simp [isCont]; omega))]
        have hval : (224 + c.toNat / 4096 - 224) * 4096 + (128 + c.toNat / 64 % 64 - 128) * 64 +
            (128 + c.toNat % 64 - 128) = c.toNat := by omega
        simp only [hval]
        rw [if_pos (by omega), hofnat]
      · have he : utf8EncChar c =
            [240 + c.toNat / 262144, 128 + c.toNat / 4096 % 64,
             128 + c.toNat / 64 % 64, 128 + c.toNat % 64] := by
          simp [utf8EncChar, h1, h2, h3]
        rw [he]
        simp only [List.cons_append, List.nil_append]
        simp only [utf8DecChar]
        rw [if_neg (by omega), if_neg (by omega), if_neg (by omega), if_neg (by omega),
            if_pos (by omega)]
        rw [if_pos (by refine ⟨?_, ?_, ?_⟩ <;> (simp [isCont]; omega))]
        have hval : (240 + c.toNat / 262144 - 240) * 262144 +
            (128 + c.toNat / 4096 % 64 - 128) * 4096 +
            (128 + c.toNat / 64 % 64 - 128) * 64 + (128 + c.toNat % 64 - 128) = c.toNat := by
          omega
        simp only [hval]
        rw [if_pos (by omega), hofnat]

theorem utf8_roundtrip : ∀ s : List Char, utf8Decode (utf8Encode s) = some s
  | [] => utf8Decode_nil
  | c :: cs => by
    have ih := utf8_roundtrip cs
    have he : utf8Encode (c :: cs) = utf8EncChar c ++ utf8Encode cs := by
      simp [utf8Encode]
    rw [he, utf8Decode_cons_of_decChar _ _ _ (utf8DecChar_encChar c (utf8Encode cs)), ih]
    rfl

/-! ## JSON (Go's encoding/json, as used on the structs of this repository) -/

/-- Lower-case hex digit. -/
def hexDigit (n : Nat) : Char := if n < 10 then Char.ofNat (48 + n) else Char.ofNat (87 + n)

/-- Go encoding/json string escaping (HTML escaping on, the Marshal default):
`"`/`\` escaped; `\n`, `\r`, `\t` named; other control chars and `<`, `>`, `&`
as `\u00xx`; U+2028/U+2029 as `\u202x`; everything else verbatim. -/
def jsonEscapeChar (c : Char) : List Char :=
  if c = '"' then ['\\', '"']
  else if c = '\\' then ['\\', '\\']
  else if c = '\n' then ['\\', 'n']
  else if c = '\r' then ['\\', 'r']
  else if c = '\t' then ['\\', 't']
  else if c.toNat < 32 ∨ c = '<' ∨ c = '>' ∨ c = '&' then
    ['\\', 'u', '0', '0', hexDigit (c.toNat / 16), hexDigit (c.toNat % 16)]
  else if c.toNat = 8232 ∨ c.toNat = 8233 then
    ['\\', 'u', '2', '0', '2', hexDigit (c.toNat % 16)]
  else [c]

/-- A JSON string literal: quote, escaped content, quote. -/
def jsonQuote (s : List Char) : List Char :=
  '"' :: (s.map jsonEscapeChar).flatten ++ ['"']

/-- Go struct `MediaRef` (Path/FileName/MimeType with JSON tags
`path`, `file_name`, `mime_type`, none omitempty). -/
structure MediaRef where
  Path : String
  FileName : String
  MimeType : String
deriving DecidableEq, Repr

/-- `json.Marshal` of a `MediaRef`: fields in declaration order, no omitempty. -/
def marshalMediaRef (r : MediaRef) : List Char :=
  ("\x7b\"path\":").toList ++ jsonQuote r.Path.toList ++
  (",\"file_name\":").toList ++ jsonQuote r.FileName.toList ++
  (",\"mime_type\":").toList ++ jsonQuote r.MimeType.toList ++ ("\x7d").toList

/-- Go struct `mediaState` (part_002): Path/FileName/MXC/Signature with JSON tags
`path`, `filename,omitempty`, `mxc,omitempty`, `signature`. -/
structure mediaState where
  Path : String
  FileName : String
  MXC : String
  Signature : String
deriving DecidableEq, Repr

/-- `json.Marshal` of a `mediaState`: declaration order; `filename` and `mxc`
are omitted when empty (omitempty); `path` and `signature` always present. -/
def marshalMediaState (s : mediaState) : List Char :=
  ("\x7b\"path\":").toList ++ jsonQuote s.Path.toList ++
  (if s.FileName = "" then [] else (",\"filename\":").toList ++ jsonQuote s.FileName.toList) ++
  (if s.MXC = "" then [] else (",\"mxc\":").toList ++ jsonQuote s.MXC.toList) ++
  (",\"signature\":").toList ++ jsonQuote s.Signature.toList ++ ("\x7d").toList

/-! ### JSON parsing (the subset of Go Unmarshal behavior relevant here) -/

def isJsonWs (c : Char) : Bool := c = ' ' ∨ c = '\t' ∨ c = '\n' ∨ c = '\r'

def skipWs (s : List Char) : List Char := s.dropWhile isJsonWs

def hexVal (c : Char) : Option Nat :=
  let v := c.toNat
  if 48 ≤ v ∧ v ≤ 57 then some (v - 48)
  else if 97 ≤ v ∧ v ≤ 102 then some (v - 97 + 10)
  else if 65 ≤ v ∧ v ≤ 70 then some (v - 65 + 10)
  else none

def parse4Hex : List Char → Option (Nat × List Char)
  | a :: b :: c :: d :: rest =>
    match hexVal a, hexVal b, hexVal c, hexVal d with
    | some va, some vb, some vc, some vd => some (va * 4096 + vb * 256 + vc * 16 + vd, rest)
    | _, _, _, _ => none
  | _ => none

theorem parse4Hex_length :
    ∀ (l : List Char) (n : Nat) (rest : List Char),
      parse4Hex l = some (n, rest) → rest.length + 4 = l.length := by
  intro l n rest h
  match l with
  | [] => exact Option.noConfusion h
  | [_] => exact Option.noConfusion h
  | [_, _] => exact Option.noConfusion h
  | [_, _, _] => exact Option.noConfusion h
  | a :: b :: c :: d :: tl =>
    simp only [parse4Hex] at h
    split at h
    · simp only [Option.some.injEq, Prod.mk.injEq] at h
      obtain ⟨-, hr⟩ := h
      subst hr
      simp
    · exact Option.noConfusion h

/-- Combine a leading UTF-16 high surrogate (from `\uXXXX`) with a following
low-surrogate escape if present; otherwise produce U+FFFD without consuming
(mirrors Go encoding/json unquoting). -/
def surrPair (n : Nat) (r3 : List Char) : Char × List Char :=
  match r3 with
  | '\\' :: 'u' :: r4 =>
    match parse4Hex r4 with
    | some (m, r5) =>
      if 56320 ≤ m ∧ m < 57344 then
        (Char.ofNat (65536 + (n - 55296) * 1024 + (m - 56320)), r5)
      else (Char.ofNat 65533, r3)
    | none => (Char.ofNat 65533, r3)
  | _ => (Char.ofNat 65533, r3)

theorem surrPair_length (n : Nat) (r3 : List Char) : (surrPair n r3).2.length ≤ r3.length := by
  match r3 with
  | [] => simp [surrPair]
  | [a] => simp [surrPair]
  | a :: b :: r4 =>
    simp only [surrPair]
    split
    · rename_i r4' heq
      injection heq with h1 heq
      injection heq with h2 heq
      subst heq
      split
      · rename_i m r5 h5
        have := parse4Hex_length _ _ _ h5
        split <;> simp <;> omega
      · simp
    · simp

/-- One step of Go encoding/json string unquoting after the opening quote:
either the closing quote (`(none, rest)`), one decoded character
(`(some c, rest)`), or a failure. Standard escapes, `\uXXXX` with UTF-16
surrogate pairs via `surrPair`, lone surrogates as U+FFFD, raw control
characters rejected. -/
def parseStrChar : List Char → Option (Option Char × List Char)
  | [] => none
  | c :: rest =>
    if c = '"' then some (none, rest)
    else if c = '\\' then
      match rest with
      | [] => none
      | e :: r2 =>
        if e = '"' ∨ e = '\\' ∨ e = '/' then some (some e, r2)
        else if e = 'b' then some (some (Char.ofNat 8), r2)
        else if e = 'f' then some (some (Char.ofNat 12), r2)
        else if e = 'n' then some (some '\n', r2)
        else if e = 'r' then some (some '\r', r2)
        else if e = 't' then some (some '\t', r2)
        else if e = 'u' then
          match parse4Hex r2 with
          | none => none
          | some (n, r3) =>
            if 55296 ≤ n ∧ n < 56320 then
              some (some (surrPair n r3).1, (surrPair n r3).2)
            else if 56320 ≤ n ∧ n < 57344 then some (some (Char.ofNat 65533), r3)
            else some (some (Char.ofNat n), r3)
        else none
    else if c.toNat < 32 then none
    else some (some c, rest)

theorem parseStrChar_length :
    ∀ (l : List Char) (oc : Option Char) (rest : List Char),
      parseStrChar l = some (oc, rest) → rest.length < l.length := by
  intro l
  match l with
  | [] => intro oc rest h; exact Option.noConfusion h
  | [c] =>
    intro oc rest h
    simp only [parseStrChar] at h
    by_cases h1 : c = '"'
    · rw [if_pos h1] at h
      cases h
      simp
    · rw [if_neg h1] at h
      by_cases h2 : c = '\\'
      · rw [if_pos h2] at h
        exact Option.noConfusion h
      · rw [if_neg h2] at h
        by_cases h3 : c.toNat < 32
        · rw [if_pos h3] at h
          exact Option.noConfusion h
        · rw [if_neg h3] at h
          cases h
          simp
  | c :: e :: r2 =>
    intro oc rest h
    simp only [parseStrChar] at h
    by_cases h1 : c = '"'
    · rw [if_pos h1] at h
      cases h
      simp
    · rw [if_neg h1] at h
      by_cases h2 : c = '\\'
      · rw [if_pos h2] at h
        by_cases e1 : e = '"' ∨ e = '\\' ∨ e = '/'
        · rw [if_pos e1] at h
          cases h
          simp only [List.length_cons]
          omega
        · rw [if_neg e1] at h
          by_cases e2 : e = 'b'
          · rw [if_pos e2] at h
            cases h
            simp only [List.length_cons]
            omega
          · rw [if_neg e2] at h
            by_cases e3 : e = 'f'
            · rw [if_pos e3] at h
              cases h
              simp only [List.length_cons]
              omega
            · rw [if_neg e3] at h
              by_cases e4 : e = 'n'
              · rw [if_pos e4] at h
                cases h
                simp only [List.length_cons]
                omega
              · rw [if_neg e4] at h
                by_cases e5 : e = 'r'
                · rw [if_pos e5] at h
                  cases h
                  simp only [List.length_cons]
                  omega
                · rw [if_neg e5] at h
                  by_cases e6 : e = 't'
                  · rw [if_pos e6] at h
                    cases h
                    simp only [List.length_cons]
                    omega
                  · rw [if_neg e6] at h
                    by_cases e7 : e = 'u'
                    · rw [if_pos e7] at h
                      cases h4 : parse4Hex r2 with
                      | none => rw [h4] at h; exact Option.noConfusion h
                      | some p =>
                        obtain ⟨n, r3⟩ := p
                        rw [h4] at h
                        have hl4 := parse4Hex_length _ _ _ h4
                        have hsp := surrPair_length n r3
                        simp only at h
                        by_cases s1 : 55296 ≤ n ∧ n < 56320
                        · rw [if_pos s1] at h
                          cases h
                          simp only [List.length_cons]
                          omega
                        · rw [if_neg s1] at h
                          by_cases s2 : 56320 ≤ n ∧ n < 57344
                          · rw [if_pos s2] at h
                            cases h
                            simp only [List.length_cons]
                            omega
                          · rw [if_neg s2] at h
                            cases h
                            simp only [List.length_cons]
                            omega
                    · rw [if_neg e7] at h
                      exact Option.noConfusion h
      · rw [if_neg h2] at h
        by_cases h3 : c.toNat < 32
        · rw [if_pos h3] at h
          exact Option.noConfusion h
        · rw [if_neg h3] at h
          cases h
          simp

/-- Parse the body of a JSON string literal after the opening quote, one
character at a time (fuelled; the character count always suffices). Returns
the content and the remainder after the closing quote. -/
def parseStringBodyF : Nat → List Char → Option (List Char × List Char)
  | 0, _ => none
  | fuel + 1, l =>
    match parseStrChar l with
    | none => none
    | some (none, rest) => some ([], rest)
    | some (some ch, rest) => (parseStringBodyF fuel rest).map (fun p => (ch :: p.1, p.2))

def parseStringBody (l : List Char) : Option (List Char × List Char) :=
  parseStringBodyF l.length l

theorem parseStringBodyF_fuel :
    ∀ (f1 : Nat) (l : List Char) (f2 : Nat), l.length ≤ f1 → l.length ≤ f2 →
      parseStringBodyF f1 l = parseStringBodyF f2 l := by
  intro f1
  induction f1 with
  | zero =>
    intro l f2 h1 h2
    have hl : l = [] := by
      cases l with
      | nil => rfl
      | cons b tl => simp at h1
    subst hl
    cases f2 with
    | zero => rfl
    | succ f2s => simp [parseStringBodyF, parseStrChar]
  | succ f1s ih =>
    intro l f2 h1 h2
    cases l with
    | nil =>
      cases f2 with
      | zero => simp [parseStringBodyF, parseStrChar]
      | succ f2s => simp [parseStringBodyF, parseStrChar]
    | cons b tl =>
      cases f2 with
      | zero => simp at h2
      | succ f2s =>
        simp only [parseStringBodyF]
        cases hd : parseStrChar (b :: tl) with
        | none => rfl
        | some p =>
          obtain ⟨oc, rest⟩ := p
          have hlt := parseStrChar_length _ _ _ hd
          simp only [List.length_cons] at hlt h1 h2
          cases oc with
          | none => rfl
          | some ch => simp [ih rest f2s (by omega) (by omega)]

theorem parseStringBody_step (l rest : List Char) (ch : Char)
    (h : parseStrChar l = some (some ch, rest)) :
    parseStringBody l = (parseStringBody rest).map (fun p => (ch :: p.1, p.2)) := by
  obtain ⟨b, tl, rfl⟩ : ∃ b tl, l = b :: tl := by
    cases l with
    | nil => exact Option.noConfusion h
    | cons b tl => exact ⟨b, tl, rfl⟩
  have hlt := parseStrChar_length _ _ _ h
  simp only [List.length_cons] at hlt
  rw [parseStringBody]
  simp only [List.length_cons, parseStringBodyF, h]
  rw [parseStringBodyF_fuel tl.length rest rest.length (by omega) (le_refl _)]
  rfl

theorem parseStringBody_close (l rest : List Char)
    (h : parseStrChar l = some (none, rest)) :
    parseStringBody l = some ([], rest) := by
  obtain ⟨b, tl, rfl⟩ : ∃ b tl, l = b :: tl := by
    cases l with
    | nil => exact Option.noConfusion h
    | cons b tl => exact ⟨b, tl, rfl⟩
  rw [parseStringBody]
  simp only [List.length_cons, parseStringBodyF, h]

def isDigit (c : Char) : Bool := '0' ≤ c ∧ c ≤ '9'

/-- Consume one or more decimal digits. -/
def digits1 : List Char → Option (List Char)
  | c :: rest => if isDigit c then some (rest.dropWhile isDigit) else none
  | [] => none

/-- Consume a JSON integer part: `0` or a nonzero digit followed by digits. -/
def skipIntPart : List Char → Option (List Char)
  | c :: rest =>
    if c = '0' then some rest
    else if '1' ≤ c ∧ c ≤ '9' then some (rest.dropWhile isDigit)
    else none
  | [] => none

/-- Consume an optional fraction part `.digits`. -/
def skipFracPart : List Char → Option (List Char)
  | '.' :: rest => digits1 rest
  | s => some s

/-- Consume an optional exponent part `[eE][+-]?digits`. -/
def skipExpPart : List Char → Option (List Char)
  | e :: rest =>
    if e = 'e' ∨ e = 'E' then
      match rest with
      | c :: r2 => if c = '+' ∨ c = '-' then digits1 r2 else digits1 rest
      | [] => none
    else some (e :: rest)
  | [] => some []

/-- Consume a JSON number (Go scanner grammar). -/
def skipNumber (s : List Char) : Option (List Char) :=
  let s1 := match s with
    | '-' :: rest => rest
    | _ => s
  (skipIntPart s1).bind fun s2 => (skipFracPart s2).bind skipExpPart

mutual

/-- Skip one JSON value (fuelled; fuel bounds nesting-driven recursion). -/
def skipValue : Nat → List Char → Option (List Char)
  | 0, _ => none
  | fuel + 1, s =>
    match s with
    | [] => none
    | c :: rest =>
      if c = '"' then (parseStringBody rest).map (fun p => p.2)
      else if c = 't' then
        match rest with
        | 'r' :: 'u' :: 'e' :: r => some r
        | _ => none
      else if c = 'f' then
        match rest with
        | 'a' :: 'l' :: 's' :: 'e' :: r => some r
        | _ => none
      else if c = 'n' then
        match rest with
        | 'u' :: 'l' :: 'l' :: r => some r
        | _ => none
      else if c.toNat = 123 then skipMembers fuel (skipWs rest) true
      else if c = '[' then skipElems fuel (skipWs rest) true
      else if c = '-' ∨ isDigit c then skipNumber (c :: rest)
      else none

/-- Skip the members of a JSON object after `{` (expects `}` immediately only
when `first` is true; rejects trailing commas, as Go does). -/
def skipMembers : Nat → List Char → Bool → Option (List Char)
  | 0, _, _ => none
  | fuel + 1, s, first =>
    match s with
    | [] => none
    | c :: rest =>
      if c.toNat = 125 ∧ first then some rest
      else if c = '"' then
        match parseStringBody rest with
        | none => none
        | some (_, r2) =>
          match skipWs r2 with
          | ':' :: r3 =>
            match skipValue fuel (skipWs r3) with
            | none => none
            | some r4 =>
              match skipWs r4 with
              | ',' :: r5 => skipMembers fuel (skipWs r5) false
              | c2 :: r5 => if c2.toNat = 125 then some r5 else none
              | [] => none
          | _ => none
      else none

/-- Skip the elements of a JSON array after `[`. -/
def skipElems : Nat → List Char → Bool → Option (List Char)
  | 0, _, _ => none
  | fuel + 1, s, first =>
    match s with
    | [] => none
    | c :: rest =>
      if c = ']' ∧ first then some rest
      else
        match skipValue fuel (c :: rest) with
        | none => none
        | some r2 =>
          match skipWs r2 with
          | ',' :: r3 => skipElems fuel (skipWs r3) false
          | ']' :: r3 => some r3
          | _ => none

end

/-- ASCII lower-casing, for Go's case-insensitive JSON field matching. -/
def foldLower (c : Char) : Char :=
  if 'A' ≤ c ∧ c ≤ 'Z' then Char.ofNat (c.toNat + 32) else c

/-- Go json matches struct fields by exact name or case-insensitively. -/
def keyMatches (key : List Char) (name : List Char) : Bool :=
  key.map foldLower == name

mutual

/-- Parse the members of a JSON object into a `MediaRef` (fields `path`,
`file_name`, `mime_type` must be strings; unknown members are skipped;
later duplicates win, as in Go). `first` is true right after `{`. -/
def parseMediaRefMembers : Nat → MediaRef → List Char → Bool → Option (MediaRef × List Char)
  | 0, _, _, _ => none
  | fuel + 1, acc, s, first =>
    match s with
    | [] => none
    | c :: rest =>
      if c.toNat = 125 ∧ first then some (acc, rest)
      else if c = '"' then
        match parseStringBody rest with
        | none => none
        | some (key, r2) =>
          match skipWs r2 with
          | ':' :: r3 =>
            let r3w := skipWs r3
            if keyMatches key ("path".toList) then
              match r3w with
              | '"' :: r4 =>
                match parseStringBody r4 with
                | none => none
                | some (v, r5) => afterMediaRefMember fuel { acc with Path := String.mk v } r5
              | _ => none
            else if keyMatches key ("file_name".toList) then
              match r3w with
              | '"' :: r4 =>
                match parseStringBody r4 with
                | none => none
                | some (v, r5) => afterMediaRefMember fuel { acc with FileName := String.mk v } r5
              | _ => none
            else if keyMatches key ("mime_type".toList) then
              match r3w with
              | '"' :: r4 =>
                match parseStringBody r4 with
                | none => none
                | some (v, r5) => afterMediaRefMember fuel { acc with MimeType := String.mk v } r5
              | _ => none
            else
              match skipValue fuel r3w with
              | none => none
              | some r4 => afterMediaRefMember fuel acc r4
          | _ => none
      else none

/-- After one member: a comma continues the member list, `}` ends the object. -/
def afterMediaRefMember : Nat → MediaRef → List Char → Option (MediaRef × List Char)
  | 0, _, _ => none
  | fuel + 1, acc, s =>
    match skipWs s with
    | ',' :: r => parseMediaRefMembers fuel acc (skipWs r) false
    | c :: r => if c.toNat = 125 then some (acc, r) else none
    | [] => none

end

/-- `json.Unmarshal` of a byte payload into a `MediaRef`: the top-level value
must be an object (or `null`, which leaves the zero value), with only
whitespace after it. -/
def unmarshalMediaRefChars (s : List Char) : Option MediaRef :=
  match skipWs s with
  | 'n' :: 'u' :: 'l' :: 'l' :: r =>
    if (skipWs r).isEmpty then some ⟨"", "", ""⟩ else none
  | c :: r =>
    if c.toNat = 123 then
      match parseMediaRefMembers (s.length + 1) ⟨"", "", ""⟩ (skipWs r) true with
      | some (ref, rest) => if (skipWs rest).isEmpty then some ref else none
      | none => none
    else none
  | [] => none

/-- `json.Unmarshal` on raw bytes (the payload is decoded as UTF-8 text). -/
def unmarshalMediaRefBytes (bytes : List Nat) : Option MediaRef :=
  (utf8Decode bytes).bind unmarshalMediaRefChars

/-! ## The Media Reference Codec (src/unnamed/part_004, package utils) -/

/-- `var ErrInvalidMediaID = errors.New("invalid media id")`. -/
def ErrInvalidMediaID : String := "invalid media id"

/-- `signMediaID`: base64url(HMAC-SHA256(secret, payload)). -/
def signMediaID (secret : List Nat) (payload : String) : String :=
  String.mk (b64encode (hmacSha256 secret (utf8Encode payload.toList)))

/-- `SignBytes`: base64url-encoded HMAC-SHA256 signature for the payload. -/
def SignBytes (secret payload : List Nat) : String :=
  String.mk (b64encode (hmacSha256 secret payload))

/-- `VerifyBytes`: constant-time comparison of the recomputed signature
(`hmac.Equal` is equality on the byte strings). -/
def VerifyBytes (secret payload : List Nat) (signature : String) : Bool :=
  SignBytes secret payload == signature

/-- `EncodeMediaID`: base64url(JSON(ref)) ++ "_" ++ signature. `json.Marshal`
cannot fail on this struct, so the only result is success. -/
def EncodeMediaID (secret : List Nat) (ref : MediaRef) : Except String String :=
  let encoded := String.mk (b64encode (utf8Encode (marshalMediaRef ref)))
  Except.ok (encoded ++ "_" ++ signMediaID secret encoded)

/-- `strings.SplitN(s, "_", 2)` as the two parts around the first `_`;
`none` when there is no `_` (Go then returns a single part). -/
def splitN2 (sep : Char) : List Char → Option (List Char × List Char)
  | [] => none
  | c :: rest =>
    if c = sep then some ([], rest)
    else (splitN2 sep rest).map (fun p => (c :: p.1, p.2))

/-- `DecodeMediaID`: split on the first `_`, verify the HMAC over the first
part against the second, base64url-decode, JSON-decode, and reject an empty
path; every failure is `ErrInvalidMediaID`. -/
def DecodeMediaID (secret : List Nat) (mediaID : String) : Except String MediaRef :=
  match splitN2 '_' mediaID.toList with
  | none => Except.error ErrInvalidMediaID
  | some (p0, p1) =>
    if signMediaID secret (String.mk p0) = String.mk p1 then
      match b64decode p0 with
      | none => Except.error ErrInvalidMediaID
      | some payload =>
        match unmarshalMediaRefBytes payload with
        | none => Except.error ErrInvalidMediaID
        | some ref =>
          if ref.Path = "" then Except.error ErrInvalidMediaID else Except.ok ref
    else Except.error ErrInvalidMediaID

/-! ## Signed media-state records (part_002: signMediaState / verifyMediaState) -/

/-- `signMediaState`: clear the signature field, marshal, sign with the shared
secret. (The `error` result of the Go function is always nil: `json.Marshal`
cannot fail on this struct.) -/
def signMediaState (secret : List Nat) (state : mediaState) : String :=
  SignBytes secret (utf8Encode (marshalMediaState { state with Signature := "" }))

/-- `verifyMediaState`: an empty signature never verifies; otherwise clear the
signature field, marshal, and compare signatures. -/
def verifyMediaState (secret : List Nat) (state : mediaState) : Bool :=
  if state.Signature = "" then false
  else
    VerifyBytes secret (utf8Encode (marshalMediaState { state with Signature := "" }))
      state.Signature

/-! ## Go string helpers (strings package subset used by the repository) -/

/-- `strings.ReplaceAll` on character lists: greedy left-to-right replacement
of non-overlapping occurrences. (Never called with an empty pattern here.) -/
theorem dropWhileLenLe (p : α → Bool) (l : List α) : (l.dropWhile p).length ≤ l.length := by
  induction l with
  | nil => simp
  | cons a l ih =>
    by_cases h : p a <;> simp [List.dropWhile, h] <;> omega

def replaceAllF (pat rep : List Char) : Nat → List Char → List Char
  | 0, s => s
  | _ + 1, [] => []
  | fuel + 1, c :: rest =>
    if pat ≠ [] ∧ pat.isPrefixOf (c :: rest) then
      rep ++ replaceAllF pat rep fuel ((c :: rest).drop pat.length)
    else c :: replaceAllF pat rep fuel rest

def replaceAllL (pat rep s : List Char) : List Char := replaceAllF pat rep s.length s

theorem replaceAllF_fuel (pat rep : List Char) :
    ∀ (f1 : Nat) (s : List Char) (f2 : Nat), s.length ≤ f1 → s.length ≤ f2 →
      replaceAllF pat rep f1 s = replaceAllF pat rep f2 s := by
  intro f1
  induction f1 with
  | zero =>
    intro s f2 h1 h2
    have hs : s = [] := by
      cases s with
      | nil => rfl
      | cons c rest => simp at h1
    subst hs
    cases f2 with
    | zero => rfl
    | succ f2s => rfl
  | succ f1s ih =>
    intro s f2 h1 h2
    cases s with
    | nil =>
      cases f2 with
      | zero => rfl
      | succ f2s => rfl
    | cons c rest =>
      cases f2 with
      | zero => simp at h2
      | succ f2s =>
        simp only [replaceAllF, List.length_cons] at h1 h2 ⊢
        by_cases hp : pat ≠ [] ∧ pat.isPrefixOf (c :: rest)
        · rw [if_pos hp, if_pos hp]
          have hpos : 0 < pat.length := List.length_pos.mpr hp.1
          have hlen : ((c :: rest).drop pat.length).length ≤ rest.length := by
            simp only [List.length_drop, List.length_cons]
            omega
          rw [ih _ f2s (by omega) (by omega)]
        · rw [if_neg hp, if_neg hp]
          rw [ih rest f2s (by omega) (by omega)]

theorem replaceAllL_nil (pat rep : List Char) : replaceAllL pat rep [] = [] := rfl

theorem replaceAllL_cons (pat rep : List Char) (c : Char) (rest : List Char) :
    replaceAllL pat rep (c :: rest) =
      if pat ≠ [] ∧ pat.isPrefixOf (c :: rest) then
        rep ++ replaceAllL pat rep ((c :: rest).drop pat.length)
      else c :: replaceAllL pat rep rest := by
  rw [replaceAllL]
  simp only [List.length_cons, replaceAllF]
  by_cases hp : pat ≠ [] ∧ pat.isPrefixOf (c :: rest)
  · rw [if_pos hp, if_pos hp]
    have hpos : 0 < pat.length := List.length_pos.mpr hp.1
    rw [replaceAllL,
      replaceAllF_fuel pat rep rest.length _ ((c :: rest).drop pat.length).length
        (by simp only [List.length_drop, List.length_cons]; omega) (le_refl _)]
  · rw [if_neg hp, if_neg hp, replaceAllL]

def goReplaceAll (s pat rep : String) : String :=
  String.mk (replaceAllL pat.toList rep.toList s.toList)

/-- Go `unicode.IsSpace` (the Unicode White_Space property). -/
def isGoSpace (c : Char) : Bool :=
  c.toNat = 9 ∨ c.toNat = 10 ∨ c.toNat = 11 ∨ c.toNat = 12 ∨ c.toNat = 13 ∨ c.toNat = 32 ∨
  c.toNat = 133 ∨ c.toNat = 160 ∨ c.toNat = 5760 ∨ (8192 ≤ c.toNat ∧ c.toNat ≤ 8202) ∨
  c.toNat = 8232 ∨ c.toNat = 8233 ∨ c.toNat = 8239 ∨ c.toNat = 8287 ∨ c.toNat = 12288

/-- `strings.TrimSpace`. -/
def goTrimSpace (s : String) : String :=
  String.mk (((s.toList.dropWhile isGoSpace).reverse.dropWhile isGoSpace).reverse)

/-- `SanitizePathSegment` (src/src/utils/path_utils.go): trim space, replace
`/`, `\`, `:` and `..` by `_`, and substitute `unknown` for an empty result. -/
def SanitizePathSegment (value : String) : String :=
  let v1 := goTrimSpace value
  let v2 := goReplaceAll v1 "/" "_"
  let v3 := goReplaceAll v2 "\\" "_"
  let v4 := goReplaceAll v3 ":" "_"
  let v5 := goReplaceAll v4 ".." "_"
  if v5 = "" then "unknown" else v5

/-- `MatrixUserLocalpart`: trim space, strip one leading `@`, and take the part
before the first `:` when it is non-empty. -/
def MatrixUserLocalpart (userID : String) : String :=
  let u1 := goTrimSpace userID
  let u2 := match u1.toList with
    | '@' :: rest => String.mk rest
    | _ => u1
  match splitN2 ':' u2.toList with
  | some (p0, _) => if p0 ≠ [] then String.mk p0 else u2
  | none => u2

/-- `getRoomName` (part_002): `strings.TrimPrefix(roomID, "!")`. -/
def getRoomName (roomID : String) : String :=
  match roomID.toList with
  | '!' :: rest => String.mk rest
  | l => String.mk l

/-- `strings.TrimLeft(s, "/")`: remove all leading slashes. -/
def goTrimLeftSlashes (s : String) : String :=
  String.mk (s.toList.dropWhile (fun c => c = '/'))

/-! ## Go path.Clean / Dir / Base / Ext / Join (the path package, as used) -/

/-- The backtracking scan of Go path.Clean's `..` case: starting from index
`w`, step left while above `dotdot` and not on a slash. -/
def btFindW (out : List Char) (dotdot : Nat) : Nat → Nat
  | 0 => 0
  | w + 1 =>
    if w + 1 ≤ dotdot then w + 1
    else if out.getD (w + 1) ' ' = '/' then w + 1
    else btFindW out dotdot w

/-- The main loop of Go path.Clean over the remaining input, the output
buffer, the `..`-barrier index and rootedness (fuelled; the input length
always suffices since every step consumes at least one input character). -/
def cleanCoreF : Nat → List Char → List Char → Nat → Bool → List Char
  | 0, _, out, _, _ => out
  | _ + 1, [], out, _, _ => out
  | fuel + 1, '/' :: r, out, dotdot, rooted => cleanCoreF fuel r out dotdot rooted
  | fuel + 1, '.' :: [], out, dotdot, rooted => cleanCoreF fuel [] out dotdot rooted
  | fuel + 1, '.' :: '/' :: r, out, dotdot, rooted => cleanCoreF fuel ('/' :: r) out dotdot rooted
  | fuel + 1, '.' :: '.' :: r, out, dotdot, rooted =>
    if r = [] ∨ r.head? = some '/' then
      if dotdot < out.length then
        cleanCoreF fuel r (out.take (btFindW out dotdot (out.length - 1))) dotdot rooted
      else if ¬rooted then
        let outA := (if 0 < out.length then out ++ ['/'] else out) ++ ['.', '.']
        cleanCoreF fuel r outA outA.length rooted
      else cleanCoreF fuel r out dotdot rooted
    else
      let sep := if rooted then out.length ≠ 1 else out.length ≠ 0
      let outA := (if sep then out ++ ['/'] else out) ++
        '.' :: '.' :: r.takeWhile (fun x => x ≠ '/')
      cleanCoreF fuel (r.dropWhile (fun x => x ≠ '/')) outA dotdot rooted
  | fuel + 1, c :: r, out, dotdot, rooted =>
    let sep := if rooted then out.length ≠ 1 else out.length ≠ 0
    let outA := (if sep then out ++ ['/'] else out) ++ c :: r.takeWhile (fun x => x ≠ '/')
    cleanCoreF fuel (r.dropWhile (fun x => x ≠ '/')) outA dotdot rooted

def cleanCore (inp out : List Char) (dotdot : Nat) (rooted : Bool) : List Char :=
  cleanCoreF inp.length inp out dotdot rooted

/-- Go `path.Clean`. -/
def pathClean (p : String) : String :=
  match p.toList with
  | [] => "."
  | l =>
    let rooted := l.head? = some '/'
    let out :=
      if rooted then cleanCore l.tail ['/'] 1 true
      else cleanCore l [] 0 false
    if out.length = 0 then "." else String.mk out

/-- Go `path.Dir`: everything up to and including the final slash, cleaned. -/
def pathDir (p : String) : String :=
  let l := p.toList
  match l.reverse.findIdx? (fun c => c = '/') with
  | none => pathClean ""
  | some i => pathClean (String.mk (l.take (l.length - i)))

/-- Go `path.Base`: the last element of the path. -/
def pathBase (p : String) : String :=
  match p.toList with
  | [] => "."
  | l =>
    let l1 := (l.reverse.dropWhile (fun c => c = '/')).reverse
    if l1 = [] then "/"
    else String.mk (l1.reverse.takeWhile (fun c => c ≠ '/')).reverse

/-- Go `path.Ext`: the suffix from the final dot in the final element. -/
def pathExt (p : String) : String :=
  let r := p.toList.reverse
  let seg := r.takeWhile (fun c => c ≠ '/')
  match seg.findIdx? (fun c => c = '.') with
  | some k => String.mk ((r.take (k + 1)).reverse)
  | none => ""

/-- Go `path.Join` of two elements: empty elements are dropped, the rest are
joined with `/` and cleaned; all empty gives the empty string. -/
def pathJoin (a b : String) : String :=
  if a = "" ∧ b = "" then ""
  else if a = "" then pathClean b
  else if b = "" then pathClean a
  else pathClean (a ++ "/" ++ b)

/-- `strings.TrimSuffix`. -/
def goTrimSuffix (s suffix : String) : String :=
  if suffix.toList.isSuffixOf s.toList then
    String.mk (s.toList.take (s.toList.length - suffix.toList.length))
  else s

/-- `strings.HasPrefix(s, "/")`. -/
def hasLeadingSlash (s : String) : Bool := s.toList.head? = some '/'

/-- `addCounterSuffix` (part_002): `name_i.ext` in the same directory,
returning (new path, new base name). -/
def addCounterSuffix (remotePath : String) (counter : Nat) : String × String :=
  let dir := pathDir remotePath
  let base := pathBase remotePath
  let ext := pathExt base
  let name := goTrimSuffix base ext
  let newBase := name ++ "_" ++ toString counter ++ ext
  if dir = "." then (newBase, newBase)
  else
    let newPath := pathJoin dir newBase
    let newPath :=
      if hasLeadingSlash remotePath ∧ ¬hasLeadingSlash newPath then "/" ++ newPath
      else newPath
    (newPath, newBase)

/-! ## Path template renderer (src/src/utils/path_utils.go) -/

/-- The year/month/day fields a Go `time.Time` contributes here, with the
`IsZero` test. The handler builds this from the event's own timestamp. -/
structure GoTime where
  year : Nat
  month : Nat
  day : Nat
  zeroTime : Bool
deriving DecidableEq, Repr

/-- `fmt.Sprintf("%02d", n)`. -/
def pad2 (n : Nat) : String := if n < 10 then "0" ++ toString n else toString n

/-- The six replacements of `RenderPathTemplate`, in map-literal order. Go
iterates the map in unspecified order; this list is the canonical order, and
order-dependence is treated explicitly via permutations. -/
def renderRepls (eventTime : GoTime) (roomName user filename : String) :
    List (String × String) :=
  [("$\x7byear\x7d", toString eventTime.year),
   ("$\x7bmonth\x7d", pad2 eventTime.month),
   ("$\x7bday\x7d", pad2 eventTime.day),
   ("$\x7broom\x7d", roomName),
   ("$\x7buser\x7d", user),
   ("$\x7bfile\x7d", filename)]

/-- Apply a sequence of whole-string replacements in order. -/
def applyRepls (repls : List (String × String)) (s : String) : String :=
  repls.foldl (fun r p => goReplaceAll r p.1 p.2) s

/-- `RenderPathTemplate` evaluated with a specific map-iteration order. -/
def RenderPathTemplateOrd (order : List (String × String)) (template : String) : String :=
  pathClean (applyRepls order template)

/-- `RenderPathTemplate` with the canonical order. `now` stands for
`time.Now()`, used only when the supplied event time is the zero time. -/
def RenderPathTemplate (template roomName user filename : String)
    (eventTime now : GoTime) : String :=
  let et := if eventTime.zeroTime then now else eventTime
  RenderPathTemplateOrd (renderRepls et roomName user filename) template

/-- All ways to insert an element into a list (for enumerating map orders). -/
def insertsAt {α : Type} (a : α) : List α → List (List α)
  | [] => [[a]]
  | b :: l => (a :: b :: l) :: (insertsAt a l).map (fun t => b :: t)

/-- All permutations of a list, structurally (every legal Go map iteration
order of the replacement list is one of these). -/
def permsL {α : Type} : List α → List (List α)
  | [] => [[]]
  | a :: l => (permsL l).flatMap (insertsAt a)

theorem mem_insertsAt_append {α : Type} (a : α) :
    ∀ (s t : List α), s ++ a :: t ∈ insertsAt a (s ++ t) := by
  intro s
  induction s with
  | nil => intro t; cases t <;> simp [insertsAt]
  | cons b s ih =>
    intro t
    simp only [List.cons_append, insertsAt, List.mem_cons, List.mem_map]
    exact Or.inr ⟨s ++ a :: t, ih t, rfl⟩

/-- Every permutation of a list occurs in its structural permutation list. -/
theorem perm_mem_permsL {α : Type} :
    ∀ (l2 l1 : List α), l1.Perm l2 → l1 ∈ permsL l2 := by
  intro l2
  induction l2 with
  | nil =>
    intro l1 h
    rw [List.perm_nil.mp h]
    simp [permsL]
  | cons a t ih =>
    intro l1 h
    have ha : a ∈ l1 := h.mem_iff.mpr (List.mem_cons_self a t)
    obtain ⟨s1, s2, rfl⟩ := List.append_of_mem ha
    have h2 : (s1 ++ s2).Perm t := by
      have hm : (s1 ++ a :: s2).Perm (a :: (s1 ++ s2)) := List.perm_middle
      exact (hm.symm.trans h).cons_inv
    have hmem := ih _ h2
    simp only [permsL, List.mem_flatMap]
    exact ⟨s1 ++ s2, hmem, mem_insertsAt_append a s1 s2⟩

/-! ## Storage client responses (nextcloud_client.go) -/

/-- The outcome of one HTTP request: transport failure or a status code. -/
inductive HttpResult where
  | netErr : HttpResult
  | status : Nat → HttpResult
deriving DecidableEq, Repr

/-- `DeleteFile`: transport errors fail; 404 is success (already gone);
200/204 succeed; any other status is a hard failure. -/
def DeleteFile (resp : HttpResult) : Except String Unit :=
  match resp with
  | HttpResult.netErr => Except.error "failed to delete file"
  | HttpResult.status code =>
    if code = 404 then Except.ok ()
    else if code ≠ 200 ∧ code ≠ 204 then Except.error "unexpected status code"
    else Except.ok ()

/-- The result of `Stat` for a given path: a hard error, or
(exists, size); 404 gives (false, 0), 200/204 give (true, size). -/
def StatOracle : Type := String → Except Unit (Bool × Int)

/-! ## The Media Lifecycle Orchestrator (part_002: HandleMatrixEvent and
redaction handling), modelled as pure functions over response oracles that
return the trace of storage/transport effects plus the handler result. -/

inductive Effect where
  | ensureDirs (path : String)
  | statF (path : String)
  | uploadF (path : String) (len : Nat)
  | sendEdit
  | storeState (s : mediaState)
  | deleteFile (path : String)
  | deleteLocalMedia
deriving DecidableEq, Repr

/-- The collision loop (`for i := 1; i <= 1000`): stat `name_i.ext` until one
is absent; `ok none` means the loop ran out of attempts without a break. -/
def searchCandidate (stat : StatOracle) (ncPath : String) (i : Nat) :
    Nat → List Effect × Except String (Option (String × String))
  | 0 => ([], Except.ok none)
  | fuel + 1 =>
    let cand := addCounterSuffix ncPath i
    match stat cand.1 with
    | Except.error _ => ([Effect.statF cand.1], Except.error "failed to check existing file")
    | Except.ok (ex, _) =>
      if ex then
        let next := searchCandidate stat ncPath (i + 1) fuel
        (Effect.statF cand.1 :: next.1, next.2)
      else ([Effect.statF cand.1], Except.ok (some cand))

/-- Step 5 of `HandleMatrixEvent` (placement/dedup/collision, lines 195–224):
stat the rendered path; absent → upload there; present with
`contentLength > 0 && size == contentLength` → reuse without upload;
otherwise search suffixed candidates; a final path equal to the rendered
path (no candidate found) is a hard failure. -/
def resolvePlacement (stat : StatOracle) (ncPath filename : String) (contentLength : Int) :
    List Effect × Except String (String × String × Bool) :=
  match stat ncPath with
  | Except.error _ => ([Effect.statF ncPath], Except.error "failed to check existing file")
  | Except.ok (ex, size) =>
    if ex then
      if contentLength > 0 ∧ size = contentLength then
        ([Effect.statF ncPath], Except.ok (ncPath, filename, false))
      else
        let s := searchCandidate stat ncPath 1 1000
        match s.2 with
        | Except.error e => (Effect.statF ncPath :: s.1, Except.error e)
        | Except.ok none =>
          (Effect.statF ncPath :: s.1, Except.error "failed to find available filename")
        | Except.ok (some (cp, cn)) =>
          if cp = ncPath then
            (Effect.statF ncPath :: s.1, Except.error "failed to find available filename")
          else (Effect.statF ncPath :: s.1, Except.ok (cp, cn, true))
    else ([Effect.statF ncPath], Except.ok (ncPath, filename, true))

/-- Configuration shared by the handler. -/
structure PipeConfig where
  secret : List Nat
  serverName : String
  adminEnabled : Bool
deriving Repr

/-- `HandleMatrixEvent` from the point where the media bytes are in hand
(lines 175–312): derive labels, render the path, ensure directories, resolve
placement, upload when needed, mint the opaque media ID, attempt the edit
(replacement) of the original message, and only after a successful edit store
the signed state record and optionally delete the original homeserver media.
`Except.ok none` is the edit-failed outcome (`return nil` without further
effects). -/
def HandleMediaUpload (cfg : PipeConfig)
    (pathTemplate roomId sender filename0 mime : String)
    (content : List Nat) (eventTime now : GoTime) (nowUnix : Nat)
    (stat : StatOracle) (ensureOk uploadOk editOk : Bool) :
    List Effect × Except String (Option (String × String × String)) :=
  let filename := if filename0 = "" then "file_" ++ toString nowUnix else filename0
  let roomSeg := SanitizePathSegment (getRoomName roomId)
  let userSeg := SanitizePathSegment (MatrixUserLocalpart sender)
  let fileSeg := SanitizePathSegment filename
  let ncPath := RenderPathTemplate pathTemplate roomSeg userSeg fileSeg eventTime now
  if ¬ensureOk then
    ([Effect.ensureDirs ncPath], Except.error "failed to create directories")
  else
    let pl := resolvePlacement stat ncPath filename (Int.ofNat content.length)
    let trace0 := Effect.ensureDirs ncPath :: pl.1
    match pl.2 with
    | Except.error e => (trace0, Except.error e)
    | Except.ok (finalPath, finalFilename, uploadNeeded) =>
      if uploadNeeded ∧ ¬uploadOk then
        (trace0 ++ [Effect.uploadF finalPath content.length],
         Except.error "failed to upload to nextcloud")
      else
        let trace1 := trace0 ++
          (if uploadNeeded then [Effect.uploadF finalPath content.length] else [])
        match EncodeMediaID cfg.secret
            ⟨goTrimLeftSlashes finalPath, finalFilename, mime⟩ with
        | Except.error _ => (trace1, Except.error "failed to create media id")
        | Except.ok mediaID =>
          let mxc := "mxc://" ++ cfg.serverName ++ "/" ++ mediaID
          let trace2 := trace1 ++ [Effect.sendEdit]
          if ¬editOk then (trace2, Except.ok none)
          else
            let st0 : mediaState :=
              { Path := finalPath, FileName := finalFilename, MXC := mxc, Signature := "" }
            let st := { st0 with Signature := signMediaState cfg.secret st0 }
            let trace3 := trace2 ++ [Effect.storeState st]
            let trace4 := trace3 ++
              (if cfg.adminEnabled then [Effect.deleteLocalMedia] else [])
            (trace4, Except.ok (some (finalPath, finalFilename, mediaID)))

/-- `deleteFromStateEvent` (redaction handling, lines 357–384): a missing
record, an empty path, an empty signature or a failed verification are all
silent no-ops (no storage call, nil result); only a verified record reaches
`DeleteFile`, whose hard failures propagate. (`verifyMediaState`'s error
result is always nil here: `json.Marshal` cannot fail on this struct.) -/
def deleteFromStateEvent (secret : List Nat) (lookup : Option mediaState)
    (deleteResp : HttpResult) : List Effect × Except String Unit :=
  match lookup with
  | none => ([], Except.ok ())
  | some st =>
    if st.Path = "" then ([], Except.ok ())
    else if st.Signature = "" then ([], Except.ok ())
    else if ¬verifyMediaState secret st then ([], Except.ok ())
    else
      match DeleteFile deleteResp with
      | Except.error _ => ([Effect.deleteFile st.Path], Except.error "failed to delete file")
      | Except.ok _ => ([Effect.deleteFile st.Path], Except.ok ())

/-! ## A concrete storage model for idempotence claims -/

/-- Target storage as an association list of path → size. -/
abbrev Storage : Type := List (String × Nat)

def lookupSize (storage : Storage) (p : String) : Option Nat :=
  (storage.find? (fun e => e.1 = p)).map (fun e => e.2)

/-- The stat responses a storage in this state produces. -/
def statOfStorage (storage : Storage) : StatOracle := fun p =>
  match lookupSize storage p with
  | some sz => Except.ok (true, Int.ofNat sz)
  | none => Except.ok (false, 0)

/-- Uploads create/replace files; deletes remove them; nothing else changes
storage. -/
def applyEffect (storage : Storage) : Effect → Storage
  | Effect.uploadF p len => (p, len) :: storage.filter (fun e => e.1 ≠ p)
  | Effect.deleteFile p => storage.filter (fun e => e.1 ≠ p)
  | _ => storage

def applyEffects (storage : Storage) (effects : List Effect) : Storage :=
  effects.foldl applyEffect storage

/-- The number of stored files at a path. -/
def countFiles (storage : Storage) (p : String) : Nat :=
  (storage.filter (fun e => e.1 = p)).length

theorem hexVal_hexDigit : ∀ n, n < 16 → hexVal (hexDigit n) = some n := by decide

theorem parseStrChar_escape (c : Char) (X : List Char) :
    parseStrChar (jsonEscapeChar c ++ X) = some (some c, X) := by
  have hv := char_toNat_valid c
  have hofnat : Char.ofNat c.toNat = c := Char.ofNat_toNat c
  by_cases h1 : c = '"'
  · subst h1
    rfl
  · by_cases h2 : c = '\\'
    · subst h2
      rfl
    · by_cases h3 : c = '\n'
      · subst h3
        rfl
      · by_cases h4 : c = '\r'
        · subst h4
          rfl
        · by_cases h5 : c = '\t'
          · subst h5
            rfl
          · by_cases h6 : c.toNat < 32 ∨ c = '<' ∨ c = '>' ∨ c = '&'
            · have hlt : c.toNat < 256 := by
                rcases h6 with h | h | h | h
                · omega
                all_goals (subst h; decide)
              have he : jsonEscapeChar c =
                  ['\\', 'u', '0', '0', hexDigit (c.toNat / 16), hexDigit (c.toNat % 16)] := by
                simp [jsonEscapeChar, h1, h2, h3, h4, h5, h6]
              rw [he]
              simp only [List.cons_append, List.nil_append]
              have hp4 : parse4Hex ('0' :: '0' :: hexDigit (c.toNat / 16) ::
                  hexDigit (c.toNat % 16) :: X) = some (c.toNat, X) := by
                simp only [parse4Hex]
                rw [show hexVal '0' = some 0 from rfl, hexVal_hexDigit _ (by omega),
                    hexVal_hexDigit _ (by omega)]
                simp only [Option.some.injEq, Prod.mk.injEq]
                constructor
                · omega
                · trivial
              simp [parseStrChar, hp4, hofnat,
                show ¬(55296 ≤ c.toNat ∧ c.toNat < 56320) from by omega,
                show ¬(56320 ≤ c.toNat ∧ c.toNat < 57344) from by omega]
            · by_cases h7 : c.toNat = 8232 ∨ c.toNat = 8233
              · have he : jsonEscapeChar c =
                    ['\\', 'u', '2', '0', '2', hexDigit (c.toNat % 16)] := by
                  simp [jsonEscapeChar, h1, h2, h3, h4, h5, h6, h7]
                rw [he]
                simp only [List.cons_append, List.nil_append]
                have hp4 : parse4Hex ('2' :: '0' :: '2' :: hexDigit (c.toNat % 16) :: X) =
                    some (c.toNat, X) := by
                  simp only [parse4Hex]
                  rw [show hexVal '2' = some 2 from rfl, show hexVal '0' = some 0 from rfl,
                      hexVal_hexDigit _ (by omega)]
                  simp only [Option.some.injEq, Prod.mk.injEq]
                  constructor
                  · omega
                  · trivial
                simp [parseStrChar, hp4, hofnat,
                  show ¬(55296 ≤ c.toNat ∧ c.toNat < 56320) from by omega,
                  show ¬(56320 ≤ c.toNat ∧ c.toNat < 57344) from by omega]
              · have he : jsonEscapeChar c = [c] := by
                  simp only [jsonEscapeChar, if_neg h1, if_neg h2, if_neg h3, if_neg h4,
                    if_neg h5, if_neg h6, if_neg h7]
                rw [he, List.cons_append, List.nil_append]
                have hge : ¬c.toNat < 32 := by
                  push_neg at h6
                  omega
                simp [parseStrChar, h1, h2, hge]

theorem parseStringBody_escape (s rest : List Char) :
    parseStringBody ((s.map jsonEscapeChar).flatten ++ '"' :: rest) = some (s, rest) := by
  induction s with
  | nil =>
    simp only [List.map_nil, List.flatten_nil, List.nil_append]
    exact parseStringBody_close _ _ rfl
  | cons c cs ih =>
    have hl : ((c :: cs).map jsonEscapeChar).flatten ++ '"' :: rest =
        jsonEscapeChar c ++ ((cs.map jsonEscapeChar).flatten ++ '"' :: rest) := by
      simp
    rw [hl, parseStringBody_step _ _ _ (parseStrChar_escape c _), ih]
    rfl

theorem stringMkToList (s : String) : String.mk s.toList = s := by
  cases s
  rfl

theorem stringMkData (l : List Char) : (String.mk l).toList = l := rfl

def lbraceC : Char := Char.ofNat 123
def rbraceC : Char := Char.ofNat 125

theorem jsonQuote_append (v Y : List Char) :
    jsonQuote v ++ Y = '"' :: ((v.map jsonEscapeChar).flatten ++ '"' :: Y) := by
  simp [jsonQuote]

/-- Parsing a quoted JSON string value: the quote form parses back to the
original characters. -/
theorem parseStringBody_quote (v : List Char) (Y : List Char) :
    parseStringBody ((v.map jsonEscapeChar).flatten ++ '"' :: Y) = some (v, Y) :=
  parseStringBody_escape v Y

theorem parseKeyPath (X : List Char) :
    parseStringBody ('p' :: 'a' :: 't' :: 'h' :: '"' :: X) = some (['p', 'a', 't', 'h'], X) :=
  parseStringBody_quote ['p', 'a', 't', 'h'] X

theorem parseKeyFileName (X : List Char) :
    parseStringBody ('f' :: 'i' :: 'l' :: 'e' :: '_' :: 'n' :: 'a' :: 'm' :: 'e' :: '"' :: X) =
      some (['f', 'i', 'l', 'e', '_', 'n', 'a', 'm', 'e'], X) :=
  parseStringBody_quote ['f', 'i', 'l', 'e', '_', 'n', 'a', 'm', 'e'] X

theorem parseKeyMimeType (X : List Char) :
    parseStringBody ('m' :: 'i' :: 'm' :: 'e' :: '_' :: 't' :: 'y' :: 'p' :: 'e' :: '"' :: X) =
      some (['m', 'i', 'm', 'e', '_', 't', 'y', 'p', 'e'], X) :=
  parseStringBody_quote ['m', 'i', 'm', 'e', '_', 't', 'y', 'p', 'e'] X

/-- The character list of `marshalMediaRef` after the opening brace. -/
def marshalTail (p fn mt : String) : List Char :=
  '"' :: 'p' :: 'a' :: 't' :: 'h' :: '"' :: ':' ::
    (jsonQuote p.toList ++ (',' :: '"' :: 'f' :: 'i' :: 'l' :: 'e' :: '_' :: 'n' :: 'a' ::
      'm' :: 'e' :: '"' :: ':' ::
      (jsonQuote fn.toList ++ (',' :: '"' :: 'm' :: 'i' :: 'm' :: 'e' :: '_' :: 't' :: 'y' ::
        'p' :: 'e' :: '"' :: ':' ::
        (jsonQuote mt.toList ++ [rbraceC])))))

theorem parseMediaRefMembers_marshal (p fn mt : String) (f : Nat) :
    parseMediaRefMembers (f + 6) ⟨"", "", ""⟩ (marshalTail p fn mt) true =
      some (⟨p, fn, mt⟩, []) := by
  have hb : rbraceC.toNat = 125 := rfl
  have km1 : keyMatches ['p', 'a', 't', 'h'] ['p', 'a', 't', 'h'] = true := rfl
  have km2 : keyMatches ['f', 'i', 'l', 'e', '_', 'n', 'a', 'm', 'e']
      ['p', 'a', 't', 'h'] = false := rfl
  have km3 : keyMatches ['m', 'i', 'm', 'e', '_', 't', 'y', 'p', 'e']
      ['p', 'a', 't', 'h'] = false := rfl
  have km4 : keyMatches ['f', 'i', 'l', 'e', '_', 'n', 'a', 'm', 'e']
      ['f', 'i', 'l', 'e', '_', 'n', 'a', 'm', 'e'] = true := rfl
  have km5 : keyMatches ['m', 'i', 'm', 'e', '_', 't', 'y', 'p', 'e']
      ['f', 'i', 'l', 'e', '_', 'n', 'a', 'm', 'e'] = false := rfl
  have km6 : keyMatches ['m', 'i', 'm', 'e', '_', 't', 'y', 'p', 'e']
      ['m', 'i', 'm', 'e', '_', 't', 'y', 'p', 'e'] = true := rfl
  simp only [marshalTail, show f + 6 = (f + 5) + 1 from rfl]
  simp [parseMediaRefMembers, afterMediaRefMember, parseKeyPath, parseKeyFileName,
    parseKeyMimeType, parseStringBody_quote, jsonQuote_append, skipWs, isJsonWs,
    stringMkToList, hb, rbraceC, km1, km2, km3, km4, km5, km6]

theorem marshalMediaRef_decomp (p fn mt : String) :
    marshalMediaRef ⟨p, fn, mt⟩ = lbraceC :: marshalTail p fn mt := by
  simp [marshalMediaRef, marshalTail, lbraceC, rbraceC, List.append_assoc]

theorem unmarshalMediaRefChars_marshal (r : MediaRef) :
    unmarshalMediaRefChars (marshalMediaRef r) = some r := by
  obtain ⟨p, fn, mt⟩ := r
  rw [unmarshalMediaRefChars, marshalMediaRef_decomp]
  have htail4 : 4 ≤ (marshalTail p fn mt).length := by
    simp [marshalTail]
  have hws : skipWs (lbraceC :: marshalTail p fn mt) = lbraceC :: marshalTail p fn mt := by
    simp [skipWs, List.dropWhile_cons, show isJsonWs lbraceC = false from rfl]
  rw [hws]
  have hne : lbraceC ≠ 'n' := by decide
  have hwstail : skipWs (marshalTail p fn mt) = marshalTail p fn mt := by
    simp [marshalTail, skipWs, List.dropWhile_cons, isJsonWs]
  have hfuel : (lbraceC :: marshalTail p fn mt).length + 1 =
      ((marshalTail p fn mt).length - 4) + 6 := by
    simp only [List.length_cons]
    omega
  simp only [hfuel]
  split
  · rename_i heq
    injection heq with h1 h2
    exact absurd h1 (by decide)
  · rename_i heq
    injection heq with hc hr
    subst hc
    subst hr
    rw [if_pos (show lbraceC.toNat = 123 from rfl), hwstail,
      parseMediaRefMembers_marshal p fn mt]
    simp [skipWs]
  · rename_i heq
    exact absurd heq (by simp)

theorem splitN2_append (sep : Char) (a b : List Char) (h : sep ∉ a) :
    splitN2 sep (a ++ sep :: b) = some (a, b) := by
  induction a with
  | nil => simp [splitN2]
  | cons c cs ih =>
    have hcs : sep ∉ cs := fun hm => h (List.mem_cons_of_mem _ hm)
    have hcne : ¬c = sep := fun he => h (he ▸ List.mem_cons_self c cs)
    simp [splitN2, hcne, ih hcs]

theorem unmarshalMediaRefBytes_marshal (ref : MediaRef) :
    unmarshalMediaRefBytes (utf8Encode (marshalMediaRef ref)) = some ref := by
  rw [unmarshalMediaRefBytes, utf8_roundtrip]
  simp [unmarshalMediaRefChars_marshal]

/-- The encoded token is always `payload ++ "_" ++ signature`. -/
theorem EncodeMediaID_eq (secret : List Nat) (ref : MediaRef) :
    EncodeMediaID secret ref =
      Except.ok (String.mk (b64encode (utf8Encode (marshalMediaRef ref))) ++ "_" ++
        signMediaID secret (String.mk (b64encode (utf8Encode (marshalMediaRef ref))))) := rfl

/-- Round trip of the codec, provided the base64url payload contains no `_`
(otherwise the decoder splits inside the payload). -/
theorem DecodeMediaID_EncodeMediaID (secret : List Nat) (ref : MediaRef)
    (hpath : ref.Path ≠ "")
    (hnous : '_' ∉ b64encode (utf8Encode (marshalMediaRef ref))) :
    DecodeMediaID secret
      (String.mk (b64encode (utf8Encode (marshalMediaRef ref))) ++ "_" ++
        signMediaID secret (String.mk (b64encode (utf8Encode (marshalMediaRef ref))))) =
      Except.ok ref := by
  have htl : (String.mk (b64encode (utf8Encode (marshalMediaRef ref))) ++ "_" ++
      signMediaID secret (String.mk (b64encode (utf8Encode (marshalMediaRef ref))))).toList =
      b64encode (utf8Encode (marshalMediaRef ref)) ++ '_' ::
        (signMediaID secret (String.mk (b64encode (utf8Encode (marshalMediaRef ref))))).toList := by
    simp
  rw [DecodeMediaID, htl, splitN2_append _ _ _ hnous]
  simp [stringMkToList, b64_roundtrip _ (fun b hb => utf8Encode_lt_256 b hb),
    unmarshalMediaRefBytes_marshal, hpath]

/-- The storage contents after processing the same event twice from an empty
store (the first run's effects are applied before the second run's stats):
first the intermediate store, then the final one. -/
def runTwiceStorage (cfg : PipeConfig) (tmpl roomId sender fn mime : String)
    (content : List Nat) (et now : GoTime) (nowUnix : Nat) : Storage × Storage :=
  let s1 := applyEffects [] (HandleMediaUpload cfg tmpl roomId sender fn mime content
    et now nowUnix (statOfStorage []) true true true).1
  let s2 := applyEffects s1 (HandleMediaUpload cfg tmpl roomId sender fn mime content
    et now nowUnix (statOfStorage s1) true true true).1
  (s1, s2)

theorem searchCandidate_found (stat : StatOracle) (ncPath : String) :
    ∀ (fuel i j : Nat), i ≤ j → j < i + fuel →
      (∀ k, i ≤ k → k < j → ∃ sz, stat (addCounterSuffix ncPath k).1 = Except.ok (true, sz)) →
      (∃ sz, stat (addCounterSuffix ncPath j).1 = Except.ok (false, sz)) →
      (searchCandidate stat ncPath i fuel).2 = Except.ok (some (addCounterSuffix ncPath j)) := by
  intro fuel
  induction fuel with
  | zero => intro i j h1 h2 _ _; omega
  | succ f ih =>
    intro i j h1 h2 hprev habs
    by_cases hij : i = j
    · subst hij
      obtain ⟨sz, hsz⟩ := habs
      simp [searchCandidate, hsz]
    · obtain ⟨sz, hsz⟩ := hprev i (le_refl i) (by omega)
      simp only [searchCandidate, hsz]
      exact ih (i + 1) j (by omega) (by omega)
        (fun k hk1 hk2 => hprev k (by omega) hk2) habs

theorem searchCandidate_exhaust (stat : StatOracle) (ncPath : String) :
    ∀ (fuel i : Nat),
      (∀ k, i ≤ k → k < i + fuel →
        ∃ sz, stat (addCounterSuffix ncPath k).1 = Except.ok (true, sz)) →
      (searchCandidate stat ncPath i fuel).2 = Except.ok none := by
  intro fuel
  induction fuel with
  | zero => intro i _; rfl
  | succ f ih =>
    intro i h
    obtain ⟨sz, hsz⟩ := h i (le_refl i) (by omega)
    simp only [searchCandidate, hsz]
    exact ih (i + 1) (fun k hk1 hk2 => h k (by omega) (by omega))

theorem searchCandidate_statF (stat : StatOracle) (ncPath : String) :
    ∀ (fuel i : Nat) (e : Effect), e ∈ (searchCandidate stat ncPath i fuel).1 →
      ∃ p, e = Effect.statF p := by
  intro fuel
  induction fuel with
  | zero => intro i e h; simp [searchCandidate] at h
  | succ f ih =>
    intro i e h
    rcases hs : stat (addCounterSuffix ncPath i).1 with err | exsz
    · simp [searchCandidate, hs] at h
      exact ⟨_, h⟩
    · obtain ⟨ex, sz⟩ := exsz
      cases ex
      · simp [searchCandidate, hs] at h
        exact ⟨_, h⟩
      · simp only [searchCandidate, hs] at h
        simp at h
        rcases h with h | h
        · exact ⟨_, h⟩
        · exact ih (i + 1) e h

theorem resolvePlacement_statF (stat : StatOracle) (ncPath fn : String) (cl : Int)
    (e : Effect) (h : e ∈ (resolvePlacement stat ncPath fn cl).1) :
    ∃ p, e = Effect.statF p := by
  rcases hs : stat ncPath with err | exsz
  · simp [resolvePlacement, hs] at h
    exact ⟨_, h⟩
  · obtain ⟨ex, sz⟩ := exsz
    cases ex
    · simp [resolvePlacement, hs] at h
      exact ⟨_, h⟩
    · by_cases hc : cl > 0 ∧ sz = cl
      · simp [resolvePlacement, hs, hc] at h
        exact ⟨_, h⟩
      · rcases hsc : (searchCandidate stat ncPath 1 1000).2 with err2 | opt
        · simp [resolvePlacement, hs, hc, hsc] at h
          rcases h with h | h
          · exact ⟨_, h⟩
          · exact searchCandidate_statF stat ncPath 1000 1 e h
        · rcases opt with _ | cpcn
          · simp [resolvePlacement, hs, hc, hsc] at h
            rcases h with h | h
            · exact ⟨_, h⟩
            · exact searchCandidate_statF stat ncPath 1000 1 e h
          · obtain ⟨cp, cn⟩ := cpcn
            by_cases hcp : cp = ncPath
            · simp [resolvePlacement, hs, hc, hsc, hcp] at h
              rcases h with h | h
              · exact ⟨_, h⟩
              · exact searchCandidate_statF stat ncPath 1000 1 e h
            · simp [resolvePlacement, hs, hc, hsc, hcp] at h
              rcases h with h | h
              · exact ⟨_, h⟩
              · exact searchCandidate_statF stat ncPath 1000 1 e h

theorem HandleMediaUpload_editFail (cfg : PipeConfig)
    (tmpl roomId sender fn0 mime : String) (content : List Nat)
    (et now : GoTime) (nowUnix : Nat) (stat : StatOracle) (ensureOk uploadOk : Bool) :
    ∀ tr res, HandleMediaUpload cfg tmpl roomId sender fn0 mime content
        et now nowUnix stat ensureOk uploadOk false = (tr, res) →
      (∀ e ∈ tr, (∃ p, e = Effect.ensureDirs p) ∨ (∃ p, e = Effect.statF p) ∨
        (∃ p l, e = Effect.uploadF p l) ∨ e = Effect.sendEdit) ∧
      (Effect.sendEdit ∈ tr → res = Except.ok none) := by
  intro tr res hR
  unfold HandleMediaUpload at hR
  dsimp only at hR
  split at hR
  · rw [Prod.mk.injEq] at hR
    obtain ⟨h1, h2⟩ := hR
    subst h1
    constructor
    · intro e he
      simp at he
      exact Or.inl ⟨_, he⟩
    · intro hmem
      simp at hmem
  · split at hR
    · rw [Prod.mk.injEq] at hR
      obtain ⟨h1, h2⟩ := hR
      subst h1
      constructor
      · intro e he
        rcases List.mem_cons.mp he with h | h
        · exact Or.inl ⟨_, h⟩
        · obtain ⟨p, hp⟩ := resolvePlacement_statF _ _ _ _ e h
          exact Or.inr (Or.inl ⟨p, hp⟩)
      · intro hmem
        rcases List.mem_cons.mp hmem with h | h
        · exact absurd h (by simp)
        · obtain ⟨p, hp⟩ := resolvePlacement_statF _ _ _ _ _ h
          exact absurd hp (by simp)
    · split at hR
      · rw [Prod.mk.injEq] at hR
        obtain ⟨h1, h2⟩ := hR
        subst h1
        constructor
        · intro e he
          rcases List.mem_append.mp he with h | h
          · rcases List.mem_cons.mp h with h | h
            · exact Or.inl ⟨_, h⟩
            · obtain ⟨p, hp⟩ := resolvePlacement_statF _ _ _ _ e h
              exact Or.inr (Or.inl ⟨p, hp⟩)
          · simp at h
            exact Or.inr (Or.inr (Or.inl ⟨_, _, h⟩))
        · intro hmem
          rcases List.mem_append.mp hmem with h | h
          · rcases List.mem_cons.mp h with h | h
            · exact absurd h (by simp)
            · obtain ⟨p, hp⟩ := resolvePlacement_statF _ _ _ _ _ h
              exact absurd hp (by simp)
          · simp at h
      · split at hR
        · rw [Prod.mk.injEq] at hR
          obtain ⟨h1, h2⟩ := hR
          subst h1
          constructor
          · intro e he
            rcases List.mem_append.mp he with h | h
            · rcases List.mem_cons.mp h with h | h
              · exact Or.inl ⟨_, h⟩
              · obtain ⟨p, hp⟩ := resolvePlacement_statF _ _ _ _ e h
                exact Or.inr (Or.inl ⟨p, hp⟩)
            · split at h
              · simp at h
                exact Or.inr (Or.inr (Or.inl ⟨_, _, h⟩))
              · simp at h
          · intro hmem
            rcases List.mem_append.mp hmem with h | h
            · rcases List.mem_cons.mp h with h | h
              · exact absurd h (by simp)
              · obtain ⟨p, hp⟩ := resolvePlacement_statF _ _ _ _ _ h
                exact absurd hp (by simp)
            · split at h
              · simp at h
              · simp at h
        · rw [if_pos (by simp)] at hR
          rw [Prod.mk.injEq] at hR
          obtain ⟨h1, h2⟩ := hR
          subst h1
          constructor
          · intro e he
            rcases List.mem_append.mp he with h | h
            · rcases List.mem_append.mp h with h | h
              · rcases List.mem_cons.mp h with h | h
                · exact Or.inl ⟨_, h⟩
                · obtain ⟨p, hp⟩ := resolvePlacement_statF _ _ _ _ e h
                  exact Or.inr (Or.inl ⟨p, hp⟩)
              · split at h
                · simp at h
                  exact Or.inr (Or.inr (Or.inl ⟨_, _, h⟩))
                · simp at h
            · simp at h
              exact Or.inr (Or.inr (Or.inr h))
          · intro _
            exact h2.symm

/-- Substring occurrence: does `pat` occur contiguously in `s`? -/
def containsSub : List Char → List Char → Bool
  | [], pat => pat.isEmpty
  | c :: r, pat => pat.isPrefixOf (c :: r) || containsSub r pat

theorem containsSub_single (c : Char) :
    ∀ (l : List Char), containsSub l [c] = false ↔ c ∉ l := by
  intro l
  induction l with
  | nil => simp [containsSub]
  | cons a r ih =>
    simp only [containsSub, List.isPrefixOf, Bool.or_eq_false_iff, ih, List.mem_cons]
    constructor
    · intro ⟨h1, h2⟩ h
      rcases h with h | h
      · subst h
        simp [List.isPrefixOf] at h1
      · exact h2 h
    · intro h
      constructor
      · simp [List.isPrefixOf]
        intro hc
        exact h (Or.inl hc)
      · exact fun hm => h (Or.inr hm)

theorem mem_replaceAllF (pat rep : List Char) :
    ∀ (fuel : Nat) (s : List Char) (x : Char),
      x ∈ replaceAllF pat rep fuel s → x ∈ s ∨ x ∈ rep := by
  intro fuel
  induction fuel with
  | zero => intro s x h; exact Or.inl h
  | succ f ih =>
    intro s x h
    cases s with
    | nil => exact Or.inl h
    | cons c rest =>
      rw [replaceAllF] at h
      by_cases hp : pat ≠ [] ∧ pat.isPrefixOf (c :: rest)
      · rw [if_pos hp] at h
        rcases List.mem_append.mp h with h | h
        · exact Or.inr h
        · rcases ih _ x h with h | h
          · exact Or.inl (List.mem_of_mem_drop h)
          · exact Or.inr h
      · rw [if_neg hp] at h
        rcases List.mem_cons.mp h with h | h
        · exact Or.inl (h ▸ List.mem_cons_self c rest)
        · rcases ih rest x h with h | h
          · exact Or.inl (List.mem_cons_of_mem c h)
          · exact Or.inr h

theorem mem_replaceAllL (pat rep : List Char) (s : List Char) (x : Char)
    (h : x ∈ replaceAllL pat rep s) : x ∈ s ∨ x ∈ rep :=
  mem_replaceAllF pat rep s.length s x h

theorem not_mem_replaceAllL_single (c r : Char) (hcr : c ≠ r) :
    ∀ (s : List Char), c ∉ replaceAllL [c] [r] s := by
  intro s
  induction s with
  | nil => simp [replaceAllL_nil]
  | cons a rest ih =>
    rw [replaceAllL_cons]
    by_cases hp : ([c] : List Char) ≠ [] ∧ ([c] : List Char).isPrefixOf (a :: rest)
    · rw [if_pos hp]
      intro hmem
      rcases List.mem_append.mp hmem with h | h
      · simp at h
        exact hcr h
      · rw [show (a :: rest).drop ([c] : List Char).length = rest by simp] at h
        exact ih h
    · rw [if_neg hp]
      intro hmem
      rcases List.mem_cons.mp hmem with h | h
      · apply hp
        refine ⟨by simp, ?_⟩
        subst h
        simp [List.isPrefixOf]
      · exact ih h

theorem not_dd_replaceAllL :
    ∀ (n : Nat) (s : List Char), s.length ≤ n →
      containsSub (replaceAllL ['.', '.'] ['_'] s) ['.', '.'] = false := by
  intro n
  induction n with
  | zero =>
    intro s h
    have hs : s = [] := by
      cases s with
      | nil => rfl
      | cons a r => simp at h
    subst hs
    simp [replaceAllL_nil, containsSub]
  | succ m ih =>
    intro s hlen
    cases s with
    | nil => simp [replaceAllL_nil, containsSub]
    | cons a rest =>
      rw [replaceAllL_cons]
      by_cases hp : (['.', '.'] : List Char) ≠ [] ∧
          (['.', '.'] : List Char).isPrefixOf (a :: rest)
      · rw [if_pos hp]
        have h2 := ih rest.tail (by
          simp only [List.length_tail]
          simp only [List.length_cons] at hlen
          omega)
        rw [show (a :: rest).drop (['.', '.'] : List Char).length = rest.tail from by
          simp [List.drop_succ_cons, List.drop_one]]
        simp only [List.singleton_append, containsSub, h2, Bool.or_false]
        simp [List.isPrefixOf]
        exact h2
      · rw [if_neg hp]
        have h2 := ih rest (by simp only [List.length_cons] at hlen; omega)
        simp only [containsSub, h2, Bool.or_false]
        by_cases ha : a = '.'
        · subst ha
          have hrest : ∀ b r2, rest = b :: r2 → b ≠ '.' := by
            intro b r2 hr hb
            subst hr
            subst hb
            exact hp ⟨by simp, by simp [List.isPrefixOf]⟩
          cases rest with
          | nil => simp [replaceAllL_nil, List.isPrefixOf]
          | cons b r2 =>
            have hb : b ≠ '.' := hrest b r2 rfl
            rw [replaceAllL_cons]
            by_cases hq : (['.', '.'] : List Char) ≠ [] ∧
                (['.', '.'] : List Char).isPrefixOf (b :: r2)
            · exfalso
              apply hb
              have hq2 := hq.2
              simp [List.isPrefixOf] at hq2
              exact hq2.1.symm
            · rw [if_neg hq]
              simp [List.isPrefixOf]
              exact fun hh => hb hh.symm
        · simp [List.isPrefixOf]
          exact fun hh => absurd hh.symm ha

/-! ## Claim theorems -/

set_option maxRecDepth 100000
set_option maxHeartbeats 4000000

/-- C1, counterexample: the round-trip claim fails for the reference
`{Path := "ab?", FileName := "", MimeType := ""}` (non-empty path, arbitrary
strings): its base64url payload contains `_`, so decoding splits inside the
payload and fails, even though encoding succeeded. -/
theorem C1_counterexample :
    EncodeMediaID [115, 101, 99, 114, 101, 116] ⟨"ab?", "", ""⟩ =
      Except.ok "eyJwYXRoIjoiYWI_IiwiZmlsZV9uYW1lIjoiIiwibWltZV90eXBlIjoiIn0_O4_labRm_K65Q8tNEDGyO0ey-3UrIEfUdgULjMK5clA" ∧
    DecodeMediaID [115, 101, 99, 114, 101, 116]
      "eyJwYXRoIjoiYWI_IiwiZmlsZV9uYW1lIjoiIiwibWltZV90eXBlIjoiIn0_O4_labRm_K65Q8tNEDGyO0ey-3UrIEfUdgULjMK5clA" =
      Except.error ErrInvalidMediaID ∧
    ("ab?" : String) ≠ "" := by
  refine ⟨by decide, by decide, by decide⟩

/-- C1, amended: for every secret and every media reference with a non-empty
storage path whose base64url-encoded JSON payload contains no `_`, encoding
succeeds and decoding the resulting token returns exactly the original
reference. -/
theorem C1_roundtrip (secret : List Nat) (ref : MediaRef)
    (hpath : ref.Path ≠ "")
    (hnous : '_' ∉ b64encode (utf8Encode (marshalMediaRef ref))) :
    ∃ tok, EncodeMediaID secret ref = Except.ok tok ∧
      DecodeMediaID secret tok = Except.ok ref :=
  ⟨_, EncodeMediaID_eq secret ref, DecodeMediaID_EncodeMediaID secret ref hpath hnous⟩

/-- C1, witness: the round trip at a concrete secret and reference. -/
theorem C1_witness :
    ("media/x.jpg" : String) ≠ "" ∧
    '_' ∉ b64encode (utf8Encode (marshalMediaRef ⟨"media/x.jpg", "x.jpg", "image/jpeg"⟩)) ∧
    ∃ tok, EncodeMediaID [115, 101, 99, 114, 101, 116] ⟨"media/x.jpg", "x.jpg", "image/jpeg"⟩ =
        Except.ok tok ∧
      DecodeMediaID [115, 101, 99, 114, 101, 116] tok =
        Except.ok ⟨"media/x.jpg", "x.jpg", "image/jpeg"⟩ :=
  ⟨by decide, by decide,
    C1_roundtrip [115, 101, 99, 114, 101, 116] ⟨"media/x.jpg", "x.jpg", "image/jpeg"⟩
      (by decide) (by decide)⟩

/-- C10: setting a media-state record's signature field to
`signMediaState(record)` yields a record that `verifyMediaState` accepts, and
the produced signature is independent of the record's prior signature value,
because both signing and verification clear the signature field before
marshalling. -/
theorem C10_sign_verify (secret : List Nat) (st : mediaState) (s1 s2 : String) :
    signMediaState secret { st with Signature := s1 } =
      signMediaState secret { st with Signature := s2 } ∧
    verifyMediaState secret { st with Signature := signMediaState secret st } = true := by
  constructor
  · rfl
  · have hlen : (hmacSha256 secret
        (utf8Encode (marshalMediaState { st with Signature := "" }))).length = 32 :=
      hmacSha256_length _ _
    have hne : signMediaState secret st ≠ "" := by
      rw [signMediaState, SignBytes]
      intro hcon
      have := congrArg String.toList hcon
      simp only at this
      have h2 := congrArg List.length this
      cases hmac32 : hmacSha256 secret
          (utf8Encode (marshalMediaState { st with Signature := "" })) with
      | nil => rw [hmac32] at hlen; simp at hlen
      | cons b tl =>
        rw [hmac32] at h2
        cases tl with
        | nil => simp [b64encode] at h2
        | cons c tl2 =>
          cases tl2 with
          | nil => simp [b64encode] at h2
          | cons d tl3 => simp [b64encode] at h2
    rw [verifyMediaState]
    simp only [hne, if_false]
    rw [VerifyBytes]
    simp [signMediaState, SignBytes]

/-- C9, counterexample: `RenderPathTemplate` iterates a Go map, whose order is
unspecified; two legal iteration orders of the same six replacements produce
different rendered paths for inputs whose substitution creates a new
placeholder occurrence, so the function as implemented is not deterministic
across evaluations. -/
theorem C9_counterexample :
    List.Perm
      [("$\x7byear\x7d", "2024"), ("$\x7bmonth\x7d", "05"), ("$\x7bday\x7d", "20"),
        ("$\x7buser\x7d", "U"), ("$\x7broom\x7d", "er"), ("$\x7bfile\x7d", "f")]
      (renderRepls ⟨2024, 5, 20, false⟩ "er" "U" "f") ∧
    RenderPathTemplateOrd (renderRepls ⟨2024, 5, 20, false⟩ "er" "U" "f")
        "$\x7bus$\x7broom\x7d\x7d" = "U" ∧
    RenderPathTemplateOrd
        [("$\x7byear\x7d", "2024"), ("$\x7bmonth\x7d", "05"), ("$\x7bday\x7d", "20"),
          ("$\x7buser\x7d", "U"), ("$\x7broom\x7d", "er"), ("$\x7bfile\x7d", "f")]
        "$\x7bus$\x7broom\x7d\x7d" = "$\x7buser\x7d" := by
  refine ⟨by decide, by decide, by decide⟩

/-- C9, amended: for a fixed iteration order the renderer is a function of its
arguments alone; when the supplied event time is non-zero the result does not
depend on the wall clock (`now`); and the `${year}/${month}/${day}` tokens are
substituted from the supplied event time, zero-padded, under every iteration
order (verified at the fixed historical date 2024-05-20). -/
theorem C9_deterministic :
    (∀ (template r u f : String) (et now now' : GoTime), et.zeroTime = false →
      RenderPathTemplate template r u f et now = RenderPathTemplate template r u f et now') ∧
    (∀ order, order.Perm (renderRepls ⟨2024, 5, 20, false⟩ "r" "u" "f") →
      RenderPathTemplateOrd order "$\x7byear\x7d/$\x7bmonth\x7d/$\x7bday\x7d" = "2024/05/20") := by
  constructor
  · intro template r u f et now now' h
    simp [RenderPathTemplate, h]
  · intro order h
    exact (by decide :
        ∀ o ∈ permsL (renderRepls ⟨2024, 5, 20, false⟩ "r" "u" "f"),
          RenderPathTemplateOrd o "$\x7byear\x7d/$\x7bmonth\x7d/$\x7bday\x7d" = "2024/05/20")
      order (perm_mem_permsL _ order h)

/-- C9, witness: the wall-clock independence applied at the fixed historical
date with two different wall clocks. -/
theorem C9_witness :
    (⟨2024, 5, 20, false⟩ : GoTime).zeroTime = false ∧
    RenderPathTemplate "$\x7byear\x7d/$\x7bfile\x7d" "r" "u" "f" ⟨2024, 5, 20, false⟩
        ⟨1999, 1, 1, false⟩ =
      RenderPathTemplate "$\x7byear\x7d/$\x7bfile\x7d" "r" "u" "f" ⟨2024, 5, 20, false⟩
        ⟨2031, 12, 31, false⟩ :=
  ⟨rfl, C9_deterministic.1 "$\x7byear\x7d/$\x7bfile\x7d" "r" "u" "f" ⟨2024, 5, 20, false⟩
    ⟨1999, 1, 1, false⟩ ⟨2031, 12, 31, false⟩ rfl⟩

/-- C2: on a redaction the delete runs only for a present record with a
non-empty path, non-empty signature and a verifying signature — then exactly
one `DeleteFile` call happens and only its hard failures propagate; in every
other case no storage call is made and the handler returns success; and a 404
(not found) response to the delete is success. -/
theorem C2_redaction_guard (secret : List Nat) (lookup : Option mediaState)
    (resp : HttpResult) :
    (∀ st, lookup = some st → st.Path ≠ "" → st.Signature ≠ "" →
      verifyMediaState secret st = true →
      deleteFromStateEvent secret lookup resp =
        ([Effect.deleteFile st.Path],
          match DeleteFile resp with
          | Except.error _ => Except.error "failed to delete file"
          | Except.ok _ => Except.ok ())) ∧
    ((lookup = none ∨ ∃ st, lookup = some st ∧
        (st.Path = "" ∨ st.Signature = "" ∨ verifyMediaState secret st = false)) →
      deleteFromStateEvent secret lookup resp = ([], Except.ok ())) ∧
    DeleteFile (HttpResult.status 404) = Except.ok () := by
  refine ⟨?_, ?_, rfl⟩
  · intro st hst hp hs hv
    subst hst
    rcases h : DeleteFile resp with e | u <;>
      simp [deleteFromStateEvent, hp, hs, hv, h]
  · intro h
    rcases h with h | ⟨st, hst, h⟩
    · subst h; rfl
    · subst hst
      rcases h with h | h | h <;> simp [deleteFromStateEvent, h]

/-- C2, witness: a concretely signed record is verified and its path deleted,
with the 404 response treated as success. -/
theorem C2_witness :
    verifyMediaState [115, 101, 99, 114, 101, 116]
      (⟨"a", "b", "mxc://x/y", signMediaState [115, 101, 99, 114, 101, 116]
        ⟨"a", "b", "mxc://x/y", ""⟩⟩ : mediaState) = true ∧
    deleteFromStateEvent [115, 101, 99, 114, 101, 116]
      (some (⟨"a", "b", "mxc://x/y", signMediaState [115, 101, 99, 114, 101, 116]
        ⟨"a", "b", "mxc://x/y", ""⟩⟩ : mediaState))
      (HttpResult.status 404) = ([Effect.deleteFile "a"], Except.ok ()) := by
  refine ⟨by decide, ?_⟩
  have h := (C2_redaction_guard [115, 101, 99, 114, 101, 116]
    (some (⟨"a", "b", "mxc://x/y", signMediaState [115, 101, 99, 114, 101, 116]
      ⟨"a", "b", "mxc://x/y", ""⟩⟩ : mediaState))
    (HttpResult.status 404)).1 _ rfl (by decide) (by decide) (by decide)
  exact h

/-- C5: decoding fails closed — for every secret and token, `DecodeMediaID`
either returns a reference with a non-empty path or fails with the
invalid-media-id error; and it fails when the token has no `_`, when the
signature over the first part differs from the second, when base64url or JSON
decoding of the payload fails, and when the decoded path is empty. -/
theorem C5_fail_closed (secret : List Nat) (tok : String) :
    ((∃ ref, DecodeMediaID secret tok = Except.ok ref ∧ ref.Path ≠ "") ∨
      DecodeMediaID secret tok = Except.error ErrInvalidMediaID) ∧
    (splitN2 '_' tok.toList = none →
      DecodeMediaID secret tok = Except.error ErrInvalidMediaID) ∧
    (∀ p0 p1, splitN2 '_' tok.toList = some (p0, p1) →
      signMediaID secret (String.mk p0) ≠ String.mk p1 →
      DecodeMediaID secret tok = Except.error ErrInvalidMediaID) ∧
    (∀ p0 p1, splitN2 '_' tok.toList = some (p0, p1) → b64decode p0 = none →
      DecodeMediaID secret tok = Except.error ErrInvalidMediaID) ∧
    (∀ p0 p1 payload, splitN2 '_' tok.toList = some (p0, p1) →
      b64decode p0 = some payload → unmarshalMediaRefBytes payload = none →
      DecodeMediaID secret tok = Except.error ErrInvalidMediaID) ∧
    (∀ p0 p1 payload ref, splitN2 '_' tok.toList = some (p0, p1) →
      b64decode p0 = some payload → unmarshalMediaRefBytes payload = some ref →
      ref.Path = "" →
      DecodeMediaID secret tok = Except.error ErrInvalidMediaID) := by
  refine ⟨?_, ?_, ?_, ?_, ?_, ?_⟩
  · rw [DecodeMediaID]
    rcases hs : splitN2 '_' tok.toList with _ | ⟨p0, p1⟩
    · exact Or.inr rfl
    · dsimp only
      by_cases hv : signMediaID secret (String.mk p0) = String.mk p1
      · rw [if_pos hv]
        rcases hb : b64decode p0 with _ | payload
        · exact Or.inr rfl
        · dsimp only
          rcases hu : unmarshalMediaRefBytes payload with _ | ref
          · exact Or.inr rfl
          · dsimp only
            by_cases hp : ref.Path = ""
            · rw [if_pos hp]; exact Or.inr rfl
            · rw [if_neg hp]; exact Or.inl ⟨ref, rfl, hp⟩
      · rw [if_neg hv]; exact Or.inr rfl
  · intro h; simp only [DecodeMediaID, h]
  · intro p0 p1 h hv; simp only [DecodeMediaID, h]; simp [hv]
  · intro p0 p1 h hb
    simp only [DecodeMediaID, h]
    by_cases hv : signMediaID secret (String.mk p0) = String.mk p1
    · simp [hv, hb]
    · simp [hv]
  · intro p0 p1 payload h hb hu
    simp only [DecodeMediaID, h]
    by_cases hv : signMediaID secret (String.mk p0) = String.mk p1
    · simp [hv, hb, hu]
    · simp [hv]
  · intro p0 p1 payload ref h hb hu hp
    simp only [DecodeMediaID, h]
    by_cases hv : signMediaID secret (String.mk p0) = String.mk p1
    · simp [hv, hb, hu, hp]
    · simp [hv]

/-- C5, witness: a token without `_` is rejected with the invalid-media-id
error. -/
theorem C5_witness :
    DecodeMediaID [0] "noseparator" = Except.error ErrInvalidMediaID :=
  (C5_fail_closed [0] "noseparator").2.1 rfl

/-- C7, counterexample: with the claimed template, labels and event time the
rendered storage path keeps the template's leading slash —
`/media/2024/roomid_server/alice/image.jpg` — and is not the slash-less
`media/2024/roomid_server/alice/image.jpg` the claim states. -/
theorem C7_counterexample :
    RenderPathTemplate "/media/$\x7byear\x7d/$\x7broom\x7d/$\x7buser\x7d/$\x7bfile\x7d"
        (SanitizePathSegment (getRoomName "!roomid:server"))
        (SanitizePathSegment (MatrixUserLocalpart "@alice:server"))
        (SanitizePathSegment "image.jpg")
        ⟨2024, 5, 20, false⟩ ⟨2024, 5, 20, false⟩ =
      "/media/2024/roomid_server/alice/image.jpg" ∧
    ("/media/2024/roomid_server/alice/image.jpg" : String) ≠
      "media/2024/roomid_server/alice/image.jpg" := by
  refine ⟨by decide, by decide⟩

/-- C7, amended: the full pipeline on that attachment stores the file at the
slash-prefixed rendered path `/media/2024/roomid_server/alice/image.jpg`, and
the minted opaque token decodes to the slash-trimmed path, the filename and
the declared MIME type. -/
theorem C7_pipeline :
    (HandleMediaUpload ⟨[115, 101, 99, 114, 101, 116], "server", false⟩
        "/media/$\x7byear\x7d/$\x7broom\x7d/$\x7buser\x7d/$\x7bfile\x7d"
        "!roomid:server" "@alice:server" "image.jpg" "image/jpeg" [1, 2, 3]
        ⟨2024, 5, 20, false⟩ ⟨2024, 5, 20, false⟩ 0 (statOfStorage []) true true true).2 =
      Except.ok (some ("/media/2024/roomid_server/alice/image.jpg", "image.jpg",
        "eyJwYXRoIjoibWVkaWEvMjAyNC9yb29taWRfc2VydmVyL2FsaWNlL2ltYWdlLmpwZyIsImZpbGVfbmFtZSI6ImltYWdlLmpwZyIsIm1pbWVfdHlwZSI6ImltYWdlL2pwZWcifQ_XgebChF2gB4vg5u4YDmuyHE5V1zoEIvTtjx6NbIvTS8")) ∧
    DecodeMediaID [115, 101, 99, 114, 101, 116]
        "eyJwYXRoIjoibWVkaWEvMjAyNC9yb29taWRfc2VydmVyL2FsaWNlL2ltYWdlLmpwZyIsImZpbGVfbmFtZSI6ImltYWdlLmpwZyIsIm1pbWVfdHlwZSI6ImltYWdlL2pwZWcifQ_XgebChF2gB4vg5u4YDmuyHE5V1zoEIvTtjx6NbIvTS8" =
      Except.ok ⟨"media/2024/roomid_server/alice/image.jpg", "image.jpg", "image/jpeg"⟩ := by
  refine ⟨by decide, by decide⟩

/-- C3, counterexample: with zero-length content the dedup condition
`contentLength > 0 && size == contentLength` is false even when the rendered
path holds a stored file of exactly the content's size, so re-processing the
same event uploads again under a suffixed name and leaves two stored files. -/
theorem C3_counterexample :
    statOfStorage (runTwiceStorage ⟨[1], "s", false⟩ "/m/$\x7bfile\x7d" "!r:s" "@u:s"
        "f" "t" [] ⟨2024, 5, 20, false⟩ ⟨2024, 5, 20, false⟩ 0).1 "/m/f" =
      Except.ok (true, 0) ∧
    (runTwiceStorage ⟨[1], "s", false⟩ "/m/$\x7bfile\x7d" "!r:s" "@u:s"
        "f" "t" [] ⟨2024, 5, 20, false⟩ ⟨2024, 5, 20, false⟩ 0).2 =
      [("/m/f_1", 0), ("/m/f", 0)] := by
  refine ⟨by decide, by decide⟩

/-- C3, amended: when the new content is non-empty and the rendered path
exists with exactly its size, placement reuses the path with no upload; hence
re-processing the same event with the same non-empty content leaves exactly
one stored file. -/
theorem C3_dedup (stat : StatOracle) (ncPath fn : String) (len : Nat) :
    (stat ncPath = Except.ok (true, Int.ofNat len) → 0 < len →
      resolvePlacement stat ncPath fn (Int.ofNat len) =
        ([Effect.statF ncPath], Except.ok (ncPath, fn, false))) ∧
    (runTwiceStorage ⟨[1], "s", false⟩ "/m/$\x7bfile\x7d" "!r:s" "@u:s"
        "f" "t" [9] ⟨2024, 5, 20, false⟩ ⟨2024, 5, 20, false⟩ 0).2 =
      [("/m/f", 1)] := by
  constructor
  · intro hst hpos
    simp [resolvePlacement, hst]
    intro h
    exact absurd h (by omega)
  · decide

/-- C3, witness: dedup at a concrete oracle that reports the rendered path
present with the content's exact non-zero size. -/
theorem C3_witness :
    resolvePlacement (statOfStorage [("p", 3)]) "p" "n" (Int.ofNat 3) =
      ([Effect.statF "p"], Except.ok ("p", "n", false)) :=
  (C3_dedup (statOfStorage [("p", 3)]) "p" "n" 3).1 (by decide) (by decide)

/-- C4: when the rendered path exists with a size that fails the dedup test,
placement stats `name_1.ext`, `name_2.ext`, … in order: it settles on the
first suffixed candidate whose stat reports absent (within the 1000-attempt
bound), marking it for upload; and if every candidate up to 1000 exists it
fails with the no-available-filename error. -/
theorem C4_collision (stat : StatOracle) (ncPath fn : String) (cl sz : Int)
    (hex : stat ncPath = Except.ok (true, sz)) (hnd : ¬(cl > 0 ∧ sz = cl)) :
    (∀ j, 1 ≤ j → j ≤ 1000 →
      (∀ k, 1 ≤ k → k < j → ∃ s, stat (addCounterSuffix ncPath k).1 = Except.ok (true, s)) →
      (∃ s, stat (addCounterSuffix ncPath j).1 = Except.ok (false, s)) →
      (addCounterSuffix ncPath j).1 ≠ ncPath →
      (resolvePlacement stat ncPath fn cl).2 =
        Except.ok ((addCounterSuffix ncPath j).1, (addCounterSuffix ncPath j).2, true)) ∧
    ((∀ k, 1 ≤ k → k ≤ 1000 → ∃ s, stat (addCounterSuffix ncPath k).1 = Except.ok (true, s)) →
      (resolvePlacement stat ncPath fn cl).2 =
        Except.error "failed to find available filename") := by
  constructor
  · intro j hj1 hj2 hprev habs hne
    have hs := searchCandidate_found stat ncPath 1000 1 j hj1 (by omega) hprev habs
    rcases hc : addCounterSuffix ncPath j with ⟨cp, cn⟩
    rw [hc] at hs hne
    simp [resolvePlacement, hex, hnd, hs, hne]
  · intro hall
    have hs := searchCandidate_exhaust stat ncPath 1000 1
      (fun k hk1 hk2 => hall k hk1 (by omega))
    simp [resolvePlacement, hex, hnd, hs]

/-- C4, witness: with the rendered path and `f_1` present and `f_2` absent,
placement picks `f_2` for upload. -/
theorem C4_witness :
    (resolvePlacement (statOfStorage [("/a/f", 5), ("/a/f_1", 7)]) "/a/f" "f" 3).2 =
      Except.ok ((addCounterSuffix "/a/f" 2).1, (addCounterSuffix "/a/f" 2).2, true) :=
  (C4_collision (statOfStorage [("/a/f", 5), ("/a/f_1", 7)]) "/a/f" "f" 3 5
      (by decide) (by decide)).1 2 (by decide) (by decide)
    (by
      intro k hk1 hk2
      have hk : k = 1 := by omega
      subst hk
      exact ⟨7, by decide⟩)
    ⟨0, by decide⟩ (by decide)

/-- C6: when the replacement-message edit fails, the handler returns nil
without further effects: no signed state record is stored, no file is deleted
from target storage, no homeserver media deletion happens, and a trace that
reached the edit yields exactly the nil result. -/
theorem C6_edit_failure (cfg : PipeConfig)
    (tmpl roomId sender fn0 mime : String) (content : List Nat)
    (et now : GoTime) (nowUnix : Nat) (stat : StatOracle) (ensureOk uploadOk : Bool) :
    (∀ st, Effect.storeState st ∉ (HandleMediaUpload cfg tmpl roomId sender fn0 mime
      content et now nowUnix stat ensureOk uploadOk false).1) ∧
    (∀ p, Effect.deleteFile p ∉ (HandleMediaUpload cfg tmpl roomId sender fn0 mime
      content et now nowUnix stat ensureOk uploadOk false).1) ∧
    Effect.deleteLocalMedia ∉ (HandleMediaUpload cfg tmpl roomId sender fn0 mime
      content et now nowUnix stat ensureOk uploadOk false).1 ∧
    (Effect.sendEdit ∈ (HandleMediaUpload cfg tmpl roomId sender fn0 mime
        content et now nowUnix stat ensureOk uploadOk false).1 →
      (HandleMediaUpload cfg tmpl roomId sender fn0 mime
        content et now nowUnix stat ensureOk uploadOk false).2 = Except.ok none) := by
  obtain ⟨hshape, hres⟩ := HandleMediaUpload_editFail cfg tmpl roomId sender fn0 mime
    content et now nowUnix stat ensureOk uploadOk
    (HandleMediaUpload cfg tmpl roomId sender fn0 mime
      content et now nowUnix stat ensureOk uploadOk false).1
    (HandleMediaUpload cfg tmpl roomId sender fn0 mime
      content et now nowUnix stat ensureOk uploadOk false).2 rfl
  refine ⟨?_, ?_, ?_, hres⟩
  · intro st hmem
    rcases hshape _ hmem with ⟨p, h⟩ | ⟨p, h⟩ | ⟨p, l, h⟩ | h <;> exact Effect.noConfusion h
  · intro p0 hmem
    rcases hshape _ hmem with ⟨p, h⟩ | ⟨p, h⟩ | ⟨p, l, h⟩ | h <;> exact Effect.noConfusion h
  · intro hmem
    rcases hshape _ hmem with ⟨p, h⟩ | ⟨p, h⟩ | ⟨p, l, h⟩ | h <;> exact Effect.noConfusion h

/-- C6, witness: a concrete run whose edit fails reaches the edit and returns
nil. -/
theorem C6_witness :
    Effect.sendEdit ∈ (HandleMediaUpload ⟨[1], "s", false⟩ "/m/$\x7bfile\x7d" "!r:s"
      "@u:s" "f" "t" [9] ⟨2024, 5, 20, false⟩ ⟨2024, 5, 20, false⟩ 0
      (statOfStorage []) true true false).1 ∧
    (HandleMediaUpload ⟨[1], "s", false⟩ "/m/$\x7bfile\x7d" "!r:s"
      "@u:s" "f" "t" [9] ⟨2024, 5, 20, false⟩ ⟨2024, 5, 20, false⟩ 0
      (statOfStorage []) true true false).2 = Except.ok none :=
  ⟨by decide,
    (C6_edit_failure ⟨[1], "s", false⟩ "/m/$\x7bfile\x7d" "!r:s" "@u:s" "f" "t" [9]
      ⟨2024, 5, 20, false⟩ ⟨2024, 5, 20, false⟩ 0 (statOfStorage []) true true).2.2.2
      (by decide)⟩

/-- C8: for every input, `SanitizePathSegment`'s output contains no `/`, no
`\`, no `:` and no `..` substring, is never empty, and an input that trims to
empty yields the literal `unknown`. -/
theorem C8_sanitize (value : String) :
    containsSub (SanitizePathSegment value).toList ['/'] = false ∧
    containsSub (SanitizePathSegment value).toList ['\\'] = false ∧
    containsSub (SanitizePathSegment value).toList [':'] = false ∧
    containsSub (SanitizePathSegment value).toList ['.', '.'] = false ∧
    SanitizePathSegment value ≠ "" ∧
    (goTrimSpace value = "" → SanitizePathSegment value = "unknown") := by
  have hs : SanitizePathSegment value =
      if goReplaceAll (goReplaceAll (goReplaceAll (goReplaceAll (goTrimSpace value)
          "/" "_") "\\" "_") ":" "_") ".." "_" = "" then "unknown"
      else goReplaceAll (goReplaceAll (goReplaceAll (goReplaceAll (goTrimSpace value)
          "/" "_") "\\" "_") ":" "_") ".." "_" := rfl
  by_cases hv : goReplaceAll (goReplaceAll (goReplaceAll (goReplaceAll (goTrimSpace value)
      "/" "_") "\\" "_") ":" "_") ".." "_" = ""
  · rw [hs, if_pos hv]
    exact ⟨by decide, by decide, by decide, by decide, by decide, fun _ => rfl⟩
  · rw [hs, if_neg hv]
    have e2 : (goReplaceAll (goTrimSpace value) "/" "_").toList
        = replaceAllL ['/'] ['_'] (goTrimSpace value).toList := by
      rw [goReplaceAll, stringMkData]
      rfl
    have e3 : (goReplaceAll (goReplaceAll (goTrimSpace value) "/" "_") "\\" "_").toList
        = replaceAllL ['\\'] ['_'] (replaceAllL ['/'] ['_'] (goTrimSpace value).toList) := by
      rw [goReplaceAll, stringMkData, e2]
      rfl
    have e4 : (goReplaceAll (goReplaceAll (goReplaceAll (goTrimSpace value) "/" "_")
          "\\" "_") ":" "_").toList
        = replaceAllL [':'] ['_'] (replaceAllL ['\\'] ['_'] (replaceAllL ['/'] ['_']
          (goTrimSpace value).toList)) := by
      rw [goReplaceAll, stringMkData, e3]
      rfl
    have e5 : (goReplaceAll (goReplaceAll (goReplaceAll (goReplaceAll (goTrimSpace value)
          "/" "_") "\\" "_") ":" "_") ".." "_").toList
        = replaceAllL ['.', '.'] ['_'] (replaceAllL [':'] ['_'] (replaceAllL ['\\'] ['_']
          (replaceAllL ['/'] ['_'] (goTrimSpace value).toList))) := by
      rw [goReplaceAll, stringMkData, e4]
      rfl
    refine ⟨?_, ?_, ?_, ?_, hv, ?_⟩
    · rw [e5, containsSub_single]
      intro h
      rcases mem_replaceAllL _ _ _ _ h with h | h
      · rcases mem_replaceAllL _ _ _ _ h with h | h
        · rcases mem_replaceAllL _ _ _ _ h with h | h
          · exact not_mem_replaceAllL_single '/' '_' (by decide) _ h
          · simp at h
        · simp at h
      · simp at h
    · rw [e5, containsSub_single]
      intro h
      rcases mem_replaceAllL _ _ _ _ h with h | h
      · rcases mem_replaceAllL _ _ _ _ h with h | h
        · exact not_mem_replaceAllL_single '\\' '_' (by decide) _ h
        · simp at h
      · simp at h
    · rw [e5, containsSub_single]
      intro h
      rcases mem_replaceAllL _ _ _ _ h with h | h
      · exact not_mem_replaceAllL_single ':' '_' (by decide) _ h
      · simp at h
    · rw [e5]
      exact not_dd_replaceAllL (replaceAllL [':'] ['_'] (replaceAllL ['\\'] ['_']
        (replaceAllL ['/'] ['_'] (goTrimSpace value).toList))).length _ (le_refl _)
    · intro h0
      refine absurd ?_ hv
      rw [h0]
      decide

/-- C8, witness: a whitespace-only label trims to empty and sanitizes to
`unknown`. -/
theorem C8_witness : goTrimSpace "  " = "" ∧ SanitizePathSegment "  " = "unknown" :=
  ⟨by decide, (C8_sanitize "  ").2.2.2.2.2 (by decide)⟩
